import Mathlib

/-!
Verification development for the AI bulk website classifier.

Strings from the Python source are shallowly embedded as `List Char`
(`Str` below), so that every operation is an executable Lean function the
kernel can evaluate on concrete inputs.  Python floats that only flow
through the code unmodified (confidence levels) are embedded as `Rat`.
Timestamps are embedded as `Nat` microsecond counts; the
`strftime` renderings used for batch identifiers are embedded as decimal
digit strings of the corresponding (micro)second count, which preserves
exactly the collision structure of the source format.
-/

namespace BWC

/-- Strings of the source, embedded as lists of characters. -/
abbrev Str := List Char

/-- Whitespace recognised by Python `str.strip()` / `str.split()`
(space, tab, newline, carriage return, vertical tab, form feed). -/
def isPyWs (c : Char) : Bool :=
  c == ' ' || c == '\t' || c == '\n' || c == '\r' || c == '\x0b' || c == '\x0c'

/-- The single character trimmed by SQLite `TRIM(x)`: the space. -/
def isSqlSpace (c : Char) : Bool := c == ' '

/-- Remove the longest prefix and suffix of characters satisfying `p`
(the shape shared by Python `strip` and SQLite `TRIM`). -/
def trimBy (p : Char → Bool) (s : Str) : Str :=
  ((s.dropWhile p).reverse.dropWhile p).reverse

/-- Python `s.strip()`. -/
def pyStrip (s : Str) : Str := trimBy isPyWs s

/-- SQLite `TRIM(s)`. -/
def sqlTrim (s : Str) : Str := trimBy isSqlSpace s

/-- ASCII lowercasing of one character; both Python `str.lower()` on the
ASCII domain strings of this system and SQLite `LOWER` act like this. -/
def lowerChar (c : Char) : Char :=
  if 'A' ≤ c ∧ c ≤ 'Z' then Char.ofNat (c.toNat + 32) else c

/-- Lowercase a whole string. -/
def lower (s : Str) : Str := s.map lowerChar

/-- The normalised key computed on the Python side of `insert_results`:
`result.get('domain', '').strip().lower()`. -/
def pyNormKey (s : Str) : Str := lower (pyStrip s)

/-- The normalised key computed on the SQL side of `insert_results`:
`LOWER(TRIM(domain))`. -/
def sqlNormKey (s : Str) : Str := lower (sqlTrim s)

/-- Python `str.split()` with no separator: split on runs of whitespace,
producing no empty words.  The accumulator holds the current word
reversed. -/
def splitWsAux : Str → Str → List Str
  | [], acc => if acc.isEmpty then [] else [acc.reverse]
  | c :: rest, acc =>
    if isPyWs c then
      if acc.isEmpty then splitWsAux rest []
      else acc.reverse :: splitWsAux rest []
    else splitWsAux rest (c :: acc)

/-- Python `s.split()`. -/
def splitWs (s : Str) : List Str := splitWsAux s []

/-- Python `' '.join(words)`. -/
def joinSpace : List Str → Str
  | [] => []
  | [w] => w
  | w :: ws => w ++ ' ' :: joinSpace ws

/-- The whitespace-collapsed form of a string:
`' '.join(s.split())` from `extract_snippet`. -/
def cleanedOf (s : Str) : Str := joinSpace (splitWs s)

/-- Index of the last space in a string, scanning left to right and
keeping the latest hit (Python `s.rfind(' ')`, with `none` for -1). -/
def rfindSpaceAux : Str → Nat → Option Nat → Option Nat
  | [], _, best => best
  | c :: rest, i, best =>
    rfindSpaceAux rest (i + 1) (if c == ' ' then some i else best)

/-- Python `s.rfind(' ')` as an `Option Nat`. -/
def rfindSpace (s : Str) : Option Nat := rfindSpaceAux s 0 none

/-- Embedding of `extract_snippet` from `run_CLI_pipeline.py`: combine
the two texts with one space, strip, return the sentinel when empty;
collapse whitespace; return the cleaned text when it fits; otherwise
take the first `max_length` characters, cut back to the last space when
that space sits strictly past `0.8 * max_length`, and append the
ellipsis.  The float comparison `last_space > max_length * 0.8` is
embedded as the exact integer comparison `10 * i > 8 * max_length`; at
the default `max_length = 200` the float product is exactly `160.0`, so
the two comparisons agree. -/
def extract_snippet (text_content ocr_content : Str) (max_length : Nat) : Str :=
  if (pyStrip (text_content ++ ' ' :: ocr_content)).isEmpty then
    "No content available".data
  else if (cleanedOf (pyStrip
      (text_content ++ ' ' :: ocr_content))).length ≤ max_length then
    cleanedOf (pyStrip (text_content ++ ' ' :: ocr_content))
  else
    (match rfindSpace ((cleanedOf (pyStrip
        (text_content ++ ' ' :: ocr_content))).take max_length) with
     | some i =>
       if 10 * i > 8 * max_length then
         ((cleanedOf (pyStrip
           (text_content ++ ' ' :: ocr_content))).take max_length).take i
       else
         (cleanedOf (pyStrip
           (text_content ++ ' ' :: ocr_content))).take max_length
     | none =>
       (cleanedOf (pyStrip
         (text_content ++ ' ' :: ocr_content))).take max_length)
    ++ "...".data

/-! ## Result store (`src/database.py`) -/

/-- A classification result dictionary as passed to `insert_results`.
Every field access in the source goes through `result.get(key, default)`,
so each field is an `Option`; timestamps (filled in by SQLite defaults)
are not represented. -/
structure InputRecord where
  domain : Option Str
  classification_label : Option Str
  summary : Option Str
  confidence_level : Option Rat
  snippet : Option Str
  html_content : Option Str
  ocr_content : Option Str
  extraction_method : Option Str
  processing_method : Option Str
deriving DecidableEq

/-- An input record with every field absent, used as a base for record
updates. -/
def blankInput : InputRecord :=
  ⟨none, none, none, none, none, none, none, none, none⟩

/-- A stored row of the `classification_results` table (the columns the
claims are about; the SQLite timestamp defaults are not represented).
Row order in the `DB` model below is insertion order, matching the
AUTOINCREMENT id order of the source table. -/
structure Row where
  domain : Str
  classification_label : Str
  summary : Str
  confidence_level : Rat
  snippet : Str
  html_content : Str
  ocr_content : Str
  extraction_method : Str
  processing_method : Str
  batch_id : Str
deriving DecidableEq

/-- A row of the `batch_metadata` table (columns the claims are about). -/
structure BatchMeta where
  batch_id : Str
  total_domains : Nat
  status : Str
deriving DecidableEq

/-- The persistent store: the two tables of `src/database.py`. -/
structure DB where
  results : List Row
  batches : List BatchMeta
deriving DecidableEq

/-- The store as created by `init_database` on a fresh file. -/
def emptyDB : DB := ⟨[], []⟩

/-- The INSERT executed by `insert_results`: each value is
`result.get(key, default)` with the defaults of the source, and the
domain column stores the trimmed-but-original-case input. -/
def rowOfInput (r : InputRecord) (batchId : Str) : Row where
  domain := pyStrip (r.domain.getD [])
  classification_label := r.classification_label.getD []
  summary := r.summary.getD []
  confidence_level := r.confidence_level.getD 0
  snippet := r.snippet.getD []
  html_content := r.html_content.getD []
  ocr_content := r.ocr_content.getD []
  extraction_method := r.extraction_method.getD []
  processing_method := r.processing_method.getD []
  batch_id := batchId

/-- The normalised key `insert_results` computes for one record:
`result.get('domain', '').strip().lower()`. -/
def keyOf (r : InputRecord) : Str := pyNormKey (r.domain.getD [])

/-- Tallies reported by `insert_results` in its log line. -/
structure InsertCounts where
  inserted : Nat
  updated : Nat
  skipped : Nat
deriving DecidableEq

/-- State threaded through the per-record loop of `insert_results`. -/
structure LoopState where
  rows : List Row
  counts : InsertCounts
deriving DecidableEq

/-- One iteration of the `for result in results` loop of
`insert_results`: normalise the domain, skip blank domains, then check
`SELECT id ... WHERE LOWER(TRIM(domain)) = ?`; on a hit either skip
(`overwrite` false) or delete every matching row and fall through to the
insert (`overwrite` true, which increments both `updated_count` and
`inserted_count` in the source); on a miss insert. -/
def insertStep (overwrite : Bool) (batchId : Str) (st : LoopState)
    (r : InputRecord) : LoopState :=
  let key := keyOf r
  if key.isEmpty then st
  else if st.rows.any (fun row => sqlNormKey row.domain == key) then
    if overwrite then
      { rows := st.rows.filter (fun row => !(sqlNormKey row.domain == key))
          ++ [rowOfInput r batchId]
        counts := { st.counts with
          updated := st.counts.updated + 1
          inserted := st.counts.inserted + 1 } }
    else
      { st with counts := { st.counts with skipped := st.counts.skipped + 1 } }
  else
    { rows := st.rows ++ [rowOfInput r batchId]
      counts := { st.counts with inserted := st.counts.inserted + 1 } }

/-- The batch id generated by `insert_results` when none is supplied:
`batch_` followed by `datetime.now().strftime('%Y%m%d_%H%M%S')`.  The
timestamp `t` is a microsecond count and the seconds-resolution
rendering is embedded as the decimal digits of `t / 1000000`, which has
the same collision structure as the source format (equal output exactly
when the two instants fall in the same second). -/
def dbBatchId (t : Nat) : Str := "batch_".data ++ Nat.toDigits 10 (t / 1000000)

/-- The batch id generated by the Flask backend:
`batch_` followed by `strftime('%Y%m%d_%H%M%S_%f')`, microsecond
resolution, embedded as the decimal digits of the microsecond count. -/
def flaskBatchId (t : Nat) : Str := "batch_".data ++ Nat.toDigits 10 t

/-- `INSERT OR REPLACE INTO batch_metadata`: any previous row with the
same batch id is replaced. -/
def upsertBatchMeta (bs : List BatchMeta) (m : BatchMeta) : List BatchMeta :=
  bs.filter (fun b => !(b.batch_id == m.batch_id)) ++ [m]

/-- The `UPDATE batch_metadata SET status = completed` at the end of
`insert_results`. -/
def completeBatches (bs : List BatchMeta) (bid : Str) : List BatchMeta :=
  bs.map (fun b =>
    if b.batch_id == bid then { b with status := "completed".data } else b)

/-- The batch id used by one `insert_results` call: the optional
argument when supplied, otherwise the generated seconds-resolution
id. -/
def insertBid (batchId : Option Str) (now : Nat) : Str :=
  batchId.getD (dbBatchId now)

/-- Embedding of `ClassificationDatabase.insert_results`.  `batchId` is
the optional argument, `now` the current time (used when the id is
generated), `hasConfig` the truthiness of the `config` argument (the
batch metadata writes are guarded by `if config:`; when it is truthy
the batch row is first upserted with status processing and finally
updated to completed, so the net effect on the batch table is the
completed row).  Returns the updated store, the three tallies and the
batch id used. -/
def insert_results (db : DB) (results : List InputRecord)
    (batchId : Option Str) (now : Nat) (hasConfig overwrite : Bool) :
    DB × InsertCounts × Str :=
  (⟨(results.foldl (insertStep overwrite (insertBid batchId now))
        ⟨db.results, ⟨0, 0, 0⟩⟩).rows,
    if hasConfig then
      completeBatches
        (upsertBatchMeta db.batches
          ⟨insertBid batchId now, results.length, "processing".data⟩)
        (insertBid batchId now)
    else db.batches⟩,
   (results.foldl (insertStep overwrite (insertBid batchId now))
      ⟨db.results, ⟨0, 0, 0⟩⟩).counts,
   insertBid batchId now)

/-- Embedding of `ClassificationDatabase.delete_batch`: remove every
result row with the batch id, then the batch metadata row; returns the
number of deleted results. -/
def delete_batch (db : DB) (bid : Str) : DB × Nat :=
  (⟨db.results.filter (fun row => !(row.batch_id == bid)),
    db.batches.filter (fun b => !(b.batch_id == bid))⟩,
   (db.results.filter (fun row => row.batch_id == bid)).length)

/-- The store operations a sequence of pipeline runs can perform
(batch inserts with either overwrite policy, and batch deletions). -/
inductive StoreOp where
  | insert (results : List InputRecord) (batchId : Option Str)
      (now : Nat) (hasConfig overwrite : Bool)
  | deleteBatch (bid : Str)

/-- Apply one store operation. -/
def applyOp (db : DB) : StoreOp → DB
  | .insert rs bid now hc ow => (insert_results db rs bid now hc ow).1
  | .deleteBatch bid => (delete_batch db bid).1

/-- Run a sequence of store operations from the empty store. -/
def applyOps (ops : List StoreOp) : DB := ops.foldl applyOp emptyDB

/-- The store invariant: at most one active record per normalised domain
key `lower(trim(domain))`. -/
def DupFree (rows : List Row) : Prop :=
  ∀ k : Str, rows.countP (fun row => sqlNormKey row.domain == k) ≤ 1

/-! ## Classifier gateway (`src/openai_client.py`) -/

/-- The parsed function-call arguments of one classifier response; each
of the four required fields may be missing. -/
structure RawResponse where
  domain : Option Str
  classification_label : Option Str
  summary : Option Str
  confidence_level : Option Rat
deriving DecidableEq

/-- What one attempt of the external call can yield: a parsed response
object, a `json.JSONDecodeError` while parsing the arguments, or any
other exception (transport error, missing tool call, wrong function
name). -/
inductive AttemptOutcome where
  | ok (r : RawResponse)
  | jsonError
  | transportError
deriving DecidableEq

/-- The required-field validation of `classify_site`: all of `domain`,
`classification_label`, `summary`, `confidence_level` must be present. -/
def hasAllFields (r : RawResponse) : Bool :=
  r.domain.isSome && r.classification_label.isSome
    && r.summary.isSome && r.confidence_level.isSome

/-- The error record returned after the retry budget is exhausted. -/
def fallbackResult (domain : Str) (maxRetries : Nat) : RawResponse where
  domain := some domain
  classification_label := some "Error".data
  summary := some ("Failed to classify due to API errors after ".data
    ++ Nat.toDigits 10 maxRetries ++ " attempts".data)
  confidence_level := some 0

/-- The `while attempts < max_retries` loop of `classify_site`.
`attempts` mirrors the loop counter; `fuel` is `maxRetries - attempts`
and drives the recursion.  A response with all required fields is
returned immediately.  A missing-field response (raising `ValueError`)
or a transport error is caught by the generic handler, which sleeps
`2 ** attempts` after incrementing the counter whenever the loop will
run again; a `json.JSONDecodeError` is caught by its own handler, which
only increments the counter and never sleeps.  Returns the result, the
number of attempts made and the list of sleep durations. -/
def classifyGo (domain : Str) (outcomes : Nat → AttemptOutcome)
    (maxRetries : Nat) : Nat → Nat → RawResponse × Nat × List Nat
  | attempts, 0 => (fallbackResult domain maxRetries, attempts, [])
  | attempts, fuel + 1 =>
    match outcomes attempts with
    | .ok r =>
      if hasAllFields r then (r, attempts + 1, [])
      else
        let rest := classifyGo domain outcomes maxRetries (attempts + 1) fuel
        (rest.1, rest.2.1,
          (if attempts + 1 < maxRetries then [2 ^ (attempts + 1)] else [])
            ++ rest.2.2)
    | .jsonError => classifyGo domain outcomes maxRetries (attempts + 1) fuel
    | .transportError =>
      let rest := classifyGo domain outcomes maxRetries (attempts + 1) fuel
      (rest.1, rest.2.1,
        (if attempts + 1 < maxRetries then [2 ^ (attempts + 1)] else [])
          ++ rest.2.2)

/-- Embedding of `classify_site`: `max_retries = 2`, starting with zero
attempts.  `outcomes n` is what the external call yields on attempt
`n`. -/
def classify_site (domain : Str) (outcomes : Nat → AttemptOutcome) :
    RawResponse × Nat × List Nat :=
  classifyGo domain outcomes 2 0 2

/-! ## CLI pipeline orchestrator (`run_CLI_pipeline.py`) -/

/-- The result collection of `main`: a slot per index of
`domains_to_process` (the `results` dict initialised with `None`
placeholders), filled as futures complete in the order `order`, each
slot receiving the value of `process_domain` for its own domain.
`proc` abstracts `process_domain`, which returns `None` on any
exception. -/
def cliCollect (doms : List Str) (proc : Str → Option InputRecord)
    (order : List Nat) : List (Option InputRecord) :=
  order.foldl (fun slots i => slots.set i ((doms[i]?).bind proc))
    (List.replicate doms.length none)

/-- Python dict insertion: replace the value at an existing key in
place, otherwise append. -/
def dictInsert : List (Str × InputRecord) → Str → InputRecord →
    List (Str × InputRecord)
  | [], k, v => [(k, v)]
  | p :: rest, k, v =>
    if p.1 == k then (k, v) :: rest else p :: dictInsert rest k v

/-- Python dict lookup. -/
def dictGet : List (Str × InputRecord) → Str → Option InputRecord
  | [], _ => none
  | p :: rest, k => if p.1 == k then some p.2 else dictGet rest k

/-- The `final_results_map` of `main`: successful results inserted in
index order, keyed by the `domain` field of each result dict. -/
def finalResultsMap (successes : List InputRecord) :
    List (Str × InputRecord) :=
  successes.foldl (fun m r => dictInsert m (r.domain.getD []) r) []

/-- The persistent state one CLI run reads and leaves behind: the
store and the output CSV sidecar file.  `csv = none` models an absent
file; `csv = some rows` a file written by `write_csv_results`.  A CSV
row re-read by `csv.DictReader` is a dictionary with exactly the five
written columns; `csvOfRecord` performs that projection.  (The reader
returns every cell as a string; since only the `domain` column — written
verbatim and compared as an exact string — influences the control flow
modelled here, the other four cells ride along with their values
unstringified.) -/
structure CliState where
  db : DB
  csv : Option (List InputRecord)
deriving DecidableEq

/-- A fresh working directory: empty store, no output CSV. -/
def freshCliState : CliState := ⟨emptyDB, none⟩

/-- The projection `write_csv_results` applies to a record: exactly the
five CSV columns (`domain, classification_label, summary,
confidence_level, snippet`), each via `item.get(key, default)`; the
other fields are absent from the file. -/
def csvOfRecord (r : InputRecord) : InputRecord where
  domain := some (r.domain.getD [])
  classification_label := some (r.classification_label.getD [])
  summary := some (r.summary.getD [])
  confidence_level := some (r.confidence_level.getD 0)
  snippet := some (r.snippet.getD [])
  html_content := none
  ocr_content := none
  extraction_method := none
  processing_method := none

/-- The rows `main` reads back from the output CSV into
`existing_results_data`: the loop keeps a row only when its domain cell
is truthy (nonempty). -/
def csvReadRows (csv : Option (List InputRecord)) : List InputRecord :=
  match csv with
  | none => []
  | some rows => rows.filter (fun r => !(r.domain.getD []).isEmpty)

/-- The domain strings the CSV arm adds to `processed_domains`. -/
def csvDomains (csv : Option (List InputRecord)) : List Str :=
  (csvReadRows csv).map (fun r => r.domain.getD [])

/-- The domain strings the database arm adds to `processed_domains`
(`{result['domain'] for result in db.get_results()}`). -/
def dbDomains (db : DB) : List Str := db.results.map (fun row => row.domain)

/-- The `processed_domains` set of `main` without `--overwrite`: the
domains recorded in the existing output CSV plus the domains already
stored in the database, compared as exact strings. -/
def cliSkipSet (st : CliState) : List Str :=
  csvDomains st.csv ++ dbDomains st.db

/-- The `domains_to_process` of `main`: with `--overwrite` every input;
otherwise the inputs whose exact string is in neither the CSV nor the
database skip set. -/
def cliToProcess (st : CliState) (inputs : List Str) (overwrite : Bool) :
    List Str :=
  if overwrite then inputs
  else inputs.filter
    (fun d => !((cliSkipSet st).any (fun x => x == d)))

/-- The `existing_results_data` of `main`: the CSV rows read back, or
nothing when `--overwrite` clears them. -/
def cliExisting (st : CliState) (overwrite : Bool) : List InputRecord :=
  if overwrite then [] else csvReadRows st.csv

/-- The successful results of one CLI run: the filled slots of the
collection dict, in original index order (`successful_results` in the
source). -/
def cliSuccesses (toProc : List Str) (proc : Str → Option InputRecord)
    (order : List Nat) : List InputRecord :=
  (cliCollect toProc proc order).filterMap id

/-- The `final_ordered_results` of `main`: build `final_results_map`
from the re-read CSV rows first and the new successful results second
(new results override old rows at equal keys), then walk the original
input order, emitting the merged record for each domain present in the
map. -/
def cliOutput (st : CliState) (inputs : List Str)
    (proc : Str → Option InputRecord) (order : List Nat)
    (overwrite : Bool) : List InputRecord :=
  inputs.filterMap (fun d =>
    dictGet (finalResultsMap (cliExisting st overwrite
      ++ cliSuccesses (cliToProcess st inputs overwrite) proc order)) d)

/-- Outcome of one CLI pipeline run: the persistent state left behind
(store and CSV), the ordered result list, the attempted-domain count
and the batch id. -/
structure CliOutcome where
  state : CliState
  output : List InputRecord
  processed : Nat
  batchId : Option Str
deriving DecidableEq

/-- Embedding of `main` from `run_CLI_pipeline.py` (the pipeline logic;
argument parsing and logging are not represented).  Without
`--overwrite` the run reads the output CSV back (exact-string skip set
plus merged rows) and the stored domains, dispatches the remaining
domains, collects results by original index as completions arrive in
the order `order`, rebuilds the output by walking the original input
order, and persists through `write_results`, which inserts into the
store with a config (so the batch row is created and completed), no
explicit batch id (so the seconds-resolution id is generated) and no
`overwrite` argument (so the store always applies its default skip
policy), then rewrites the CSV with the merged output.  A run with
nothing to process returns before any batch is created: it rewrites
the CSV from the existing rows when there are any, creates an empty
CSV when the file was absent, and otherwise leaves everything
untouched. -/
def cliRun (st : CliState) (inputs : List Str)
    (proc : Str → Option InputRecord) (order : List Nat)
    (overwrite : Bool) (now : Nat) : CliOutcome :=
  if (cliToProcess st inputs overwrite).isEmpty then
    if (cliExisting st overwrite).isEmpty then
      if st.csv = none then
        { state := ⟨(insert_results st.db [] none now false false).1, some []⟩
          output := [], processed := 0, batchId := none }
      else
        { state := st, output := [], processed := 0, batchId := none }
    else
      { state := ⟨(insert_results st.db (cliExisting st overwrite)
            none now false false).1,
          some ((cliExisting st overwrite).map csvOfRecord)⟩
        output := [], processed := 0, batchId := none }
  else
    { state := ⟨(insert_results st.db
          (cliOutput st inputs proc order overwrite) none now true false).1,
        some ((cliOutput st inputs proc order overwrite).map csvOfRecord)⟩
      output := cliOutput st inputs proc order overwrite
      processed := (cliToProcess st inputs overwrite).length
      batchId := some (insert_results st.db
        (cliOutput st inputs proc order overwrite) none now true false).2.2 }

/-! ## Flask backend (`flask_backend_enhanced.py`) -/

/-- SQLite `domain LIKE '%filt%'`: case-insensitive (ASCII) substring
match.  `sub [] hay` is true for every `hay` (prefix check of the empty
needle succeeds). -/
def subAt : Str → Str → Bool
  | [], _ => true
  | _ :: _, [] => false
  | a :: as, b :: bs => a == b && subAt as bs

/-- Substring containment of `needle` in `hay`. -/
def containsSub (needle : Str) : Str → Bool
  | [] => subAt needle []
  | c :: rest => subAt needle (c :: rest) || containsSub needle rest

/-- The LIKE match used by `get_results(domain_filter=...)`. -/
def likeMatch (rowDomain filt : Str) : Bool :=
  containsSub (lower filt) (lower rowDomain)

/-- `db.get_results(domain_filter=d, limit=1)`: the matching rows in
`processed_at DESC` order (embedded as reverse insertion order),
limited to one row. -/
def getResultsDomain1 (db : DB) (filt : Str) : List Row :=
  ((db.results.filter (fun row => likeMatch row.domain filt)).reverse).take 1

/-- One iteration of the duplicate-check loop of `/classify`: a domain
with no stored LIKE match joins `domains_to_process`, otherwise its
first stored match joins `existing_results`. -/
def flaskSplitStep (db : DB) (acc : List Str × List Row) (d : Str) :
    List Str × List Row :=
  match getResultsDomain1 db d with
  | [] => (acc.1 ++ [d], acc.2)
  | rows => (acc.1, acc.2 ++ rows)

/-- The duplicate check of the `/classify` endpoint without overwrite:
walk the submitted domains in order, collecting those with no stored
LIKE match into `domains_to_process` and the first stored match of the
others into `existing_results`. -/
def flaskSplit (db : DB) (domains : List Str) : List Str × List Row :=
  domains.foldl (flaskSplitStep db) ([], [])

/-- The result collection of the `/classify` endpoint: futures are
consumed with `as_completed`, so new results are appended in completion
order (the order `order` over indices of `domains_to_process`), keeping
only truthy results. -/
def flaskProcessOrder (toProcess : List Str)
    (proc : Str → Option InputRecord) (order : List Nat) :
    List InputRecord :=
  order.filterMap (fun i => (toProcess[i]?).bind proc)

/-- An entry of the response list of `/classify`: either a stored row
(an already-done domain) or a freshly produced result dict. -/
abbrev OutItem := Sum Row InputRecord

/-- The JSON reply of the `/classify` endpoint (the fields the claims
are about). -/
structure FlaskReply where
  results : List OutItem
  batch_id : Option Str
  total_processed : Nat
  skipped : Nat
deriving DecidableEq

/-- The `domains_to_process` of `/classify` (all submitted domains when
overwrite is requested). -/
def flaskToProcess (db : DB) (domains : List Str) (overwrite : Bool) :
    List Str :=
  if overwrite then domains else (flaskSplit db domains).1

/-- The `existing_results` of `/classify` (empty when overwrite is
requested). -/
def flaskExisting (db : DB) (domains : List Str) (overwrite : Bool) :
    List Row :=
  if overwrite then [] else (flaskSplit db domains).2

/-- Embedding of `classify_domains` from `flask_backend_enhanced.py`.
`none` is the 400 reply for an empty domain list.  Without overwrite the
stored duplicates are split off; if nothing is left to process the
endpoint replies with the existing rows, a null batch id and zero
processed, without touching the store.  Otherwise the new results are
collected in completion order, stored through `insert_results` only when
at least one result was produced (the `if db and results:` guard) — the
source passes no `overwrite` argument to `insert_results`, so the store
always applies its default skip policy — and the reply carries a batch
id only in that case. -/
def flaskClassify (db : DB) (domains : List Str)
    (proc : Str → Option InputRecord) (order : List Nat)
    (overwrite hasConfig : Bool) (now : Nat) :
    Option (FlaskReply × DB) :=
  if domains.isEmpty then none
  else if (flaskToProcess db domains overwrite).isEmpty then
    some ({ results := (flaskExisting db domains overwrite).map Sum.inl
            batch_id := none
            total_processed := 0
            skipped := domains.length }, db)
  else
    some ({ results := (flaskExisting db domains overwrite).map Sum.inl
              ++ (flaskProcessOrder (flaskToProcess db domains overwrite)
                  proc order).map Sum.inr
            batch_id := if (flaskProcessOrder
                (flaskToProcess db domains overwrite) proc order).isEmpty
              then none else some (flaskBatchId now)
            total_processed := (flaskProcessOrder
              (flaskToProcess db domains overwrite) proc order).length
            skipped := domains.length
              - (flaskToProcess db domains overwrite).length },
          if (flaskProcessOrder (flaskToProcess db domains overwrite)
              proc order).isEmpty then db
          else (insert_results db
            (flaskProcessOrder (flaskToProcess db domains overwrite)
              proc order)
            (some (flaskBatchId now)) now hasConfig false).1)

/-! ## Concrete instances used in witnesses and counterexamples -/

/-- A classification record as produced for domain `d` by a classifier
that echoes the submitted domain. -/
def echoRecord (d : Str) : InputRecord where
  domain := some d
  classification_label := some "Other".data
  summary := some "summary".data
  confidence_level := some 1
  snippet := some "snippet".data
  html_content := some "content".data
  ocr_content := some []
  extraction_method := some "html".data
  processing_method := some "html".data

/-- A `process_domain` collaborator that always succeeds and echoes the
submitted domain. -/
def echoProc (d : Str) : Option InputRecord := some (echoRecord d)

/-- Modelled from the spec wording of the snippet algorithm: identical
to `extract_snippet` except that the word-boundary cut applies when the
last space position is at least `0.8 * max_length` (the source applies
it only when the position is strictly greater).  Used only to compare
the spec wording against the source behaviour. -/
def extract_snippet_spec (text_content ocr_content : Str)
    (max_length : Nat) : Str :=
  if (pyStrip (text_content ++ ' ' :: ocr_content)).isEmpty then
    "No content available".data
  else if (cleanedOf (pyStrip
      (text_content ++ ' ' :: ocr_content))).length ≤ max_length then
    cleanedOf (pyStrip (text_content ++ ' ' :: ocr_content))
  else
    (match rfindSpace ((cleanedOf (pyStrip
        (text_content ++ ' ' :: ocr_content))).take max_length) with
     | some i =>
       if 10 * i ≥ 8 * max_length then
         ((cleanedOf (pyStrip
           (text_content ++ ' ' :: ocr_content))).take max_length).take i
       else
         (cleanedOf (pyStrip
           (text_content ++ ' ' :: ocr_content))).take max_length
     | none =>
       (cleanedOf (pyStrip
         (text_content ++ ' ' :: ocr_content))).take max_length)
    ++ "...".data

/-- Text whose cleaned form has length 202 with its only space exactly
at index 160, the boundary position `0.8 * 200`. -/
def snipEdgeText : Str :=
  List.replicate 160 'a' ++ ' ' :: List.replicate 41 'b'

/-- A `process_domain` collaborator that fails (returns none) on the
domain `bad` and echoes every other domain. -/
def procExcept (bad d : Str) : Option InputRecord :=
  if d == bad then none else echoProc d

/-- Whether one attempt outcome fails validation in `classify_site`
(anything but a response carrying all four required fields). -/
def attemptFails (o : AttemptOutcome) : Bool :=
  match o with
  | .ok r => !hasAllFields r
  | _ => true

/-! ## String lemmas -/

theorem head?_dropWhile_false {p : Char → Bool} {l : Str} {c : Char}
    (h : (l.dropWhile p).head? = some c) : p c = false := by
  have := List.head?_dropWhile_not p l
  rw [h] at this
  exact this

theorem dropWhile_eq_self_of_head {q : Char → Bool} {l : Str}
    (h : ∀ c, l.head? = some c → q c = false) : l.dropWhile q = l := by
  cases l with
  | nil => rfl
  | cons a t =>
    have := h a rfl
    simp [List.dropWhile_cons, this]

theorem getLast?_suffix_eq {l₂ l₁ : Str} (h : l₂ <:+ l₁) (hne : l₂ ≠ []) :
    l₂.getLast? = l₁.getLast? := by
  obtain ⟨t, rfl⟩ := h
  rw [List.getLast?_append]
  cases hl : l₂.getLast? with
  | none => exact absurd (List.getLast?_eq_none_iff.mp hl) hne
  | some c => rfl

theorem trimBy_subset_trim {p q : Char → Bool}
    (hpq : ∀ c, q c = true → p c = true) (s : Str) :
    trimBy q (trimBy p s) = trimBy p s := by
  unfold trimBy
  set u := s.dropWhile p with hu
  set v := u.reverse.dropWhile p with hv
  rcases eq_or_ne v [] with hvnil | hvne
  · simp [hvnil]
  · have hq_of_p : ∀ c, p c = false → q c = false := by
      intro c hc
      cases hqc : q c with
      | false => rfl
      | true => rw [hpq c hqc] at hc; cases hc
    -- the head of the reversed trimmed string fails p, hence q
    have hhead_rev : ∀ c, v.reverse.head? = some c → q c = false := by
      intro c hc
      rw [List.head?_reverse] at hc
      have hlast : v.getLast? = u.reverse.getLast? :=
        getLast?_suffix_eq (hv ▸ List.dropWhile_suffix p) hvne
      rw [hlast, List.getLast?_reverse] at hc
      exact hq_of_p c (head?_dropWhile_false (hu ▸ hc))
    have h1 : v.reverse.dropWhile q = v.reverse :=
      dropWhile_eq_self_of_head hhead_rev
    -- the head of the trimmed string itself fails p, hence q
    have hhead : ∀ c, v.head? = some c → q c = false := fun c hc =>
      hq_of_p c (head?_dropWhile_false (hv ▸ hc))
    have h2 : v.dropWhile q = v := dropWhile_eq_self_of_head hhead
    rw [h1, List.reverse_reverse, h2]

theorem sqlTrim_pyStrip (s : Str) : sqlTrim (pyStrip s) = pyStrip s := by
  apply trimBy_subset_trim
  intro c hc
  have : c = ' ' := by
    have := of_decide_eq_true (by simpa [isSqlSpace] using hc)
    exact this
  simp [isPyWs, this]

theorem sqlNormKey_pyStrip (s : Str) : sqlNormKey (pyStrip s) = pyNormKey s := by
  unfold sqlNormKey pyNormKey
  rw [sqlTrim_pyStrip]

theorem sqlNormKey_rowOfInput (r : InputRecord) (bid : Str) :
    sqlNormKey (rowOfInput r bid).domain = keyOf r := by
  unfold rowOfInput keyOf
  exact sqlNormKey_pyStrip _

theorem lower_eq_nil_iff (s : Str) : lower s = [] ↔ s = [] := by
  unfold lower
  simp

theorem keyOf_eq_nil_iff (r : InputRecord) :
    keyOf r = [] ↔ pyStrip (r.domain.getD []) = [] := by
  unfold keyOf pyNormKey
  exact lower_eq_nil_iff _

/-! ## Snippet lemmas -/

theorem splitWsAux_dropWhile (s : Str) :
    splitWsAux (s.dropWhile isPyWs) [] = splitWsAux s [] := by
  induction s with
  | nil => rfl
  | cons c rest ih =>
    by_cases hc : isPyWs c
    · rw [List.dropWhile_cons]
      simp only [hc, if_true]
      rw [ih]
      simp [splitWsAux, hc]
    · rw [List.dropWhile_cons]
      simp [hc]

theorem splitWsAux_wsOnly (w : Str) (acc : Str)
    (h : ∀ c ∈ w, isPyWs c = true) :
    splitWsAux w acc = if acc.isEmpty then [] else [acc.reverse] := by
  induction w generalizing acc with
  | nil => rfl
  | cons c rest ih =>
    have hc := h c (List.mem_cons_self c rest)
    have hrest : ∀ c ∈ rest, isPyWs c = true := fun x hx =>
      h x (List.mem_cons_of_mem c hx)
    simp only [splitWsAux, hc, if_true]
    rw [ih [] hrest]
    by_cases hacc : acc.isEmpty
    · simp [hacc, ih [] hrest]
    · simp [hacc]

theorem splitWsAux_append_ws (s w : Str) (acc : Str)
    (h : ∀ c ∈ w, isPyWs c = true) :
    splitWsAux (s ++ w) acc = splitWsAux s acc := by
  induction s generalizing acc with
  | nil =>
    rw [List.nil_append]
    exact splitWsAux_wsOnly w acc h
  | cons c rest ih =>
    simp only [List.cons_append, splitWsAux]
    by_cases hc : isPyWs c
    · simp only [hc, if_true]
      by_cases hacc : acc.isEmpty
      · simp [hacc, ih]
      · simp [hacc, ih]
    · simp [hc, ih]

theorem splitWs_pyStrip (s : Str) : splitWs (pyStrip s) = splitWs s := by
  unfold splitWs pyStrip trimBy
  set u := s.dropWhile isPyWs with hu
  have hdecomp : u = ((u.reverse.dropWhile isPyWs).reverse)
      ++ (u.reverse.takeWhile isPyWs).reverse := by
    conv_lhs => rw [← List.reverse_reverse u,
      ← List.takeWhile_append_dropWhile (p := isPyWs) (l := u.reverse)]
    rw [List.reverse_append]
  have htail : ∀ c ∈ (u.reverse.takeWhile isPyWs).reverse, isPyWs c = true := by
    intro c hcmem
    rw [List.mem_reverse] at hcmem
    exact List.mem_takeWhile_imp hcmem
  calc splitWsAux (u.reverse.dropWhile isPyWs).reverse []
      = splitWsAux ((u.reverse.dropWhile isPyWs).reverse
          ++ (u.reverse.takeWhile isPyWs).reverse) [] :=
        (splitWsAux_append_ws _ _ [] htail).symm
    _ = splitWsAux u [] := by rw [← hdecomp]
    _ = splitWsAux s [] := hu ▸ splitWsAux_dropWhile s

theorem splitWsAux_ne_nil (s acc : Str) (h : acc ≠ []) :
    splitWsAux s acc ≠ [] := by
  induction s generalizing acc with
  | nil =>
    simp only [splitWsAux]
    rw [if_neg (by simpa using h)]
    simp
  | cons c rest ih =>
    simp only [splitWsAux]
    by_cases hc : isPyWs c
    · rw [if_pos hc, if_neg (by simpa using h)]
      simp
    · rw [if_neg hc]
      exact ih _ (by simp)

theorem splitWs_eq_nil_iff (s : Str) :
    splitWs s = [] ↔ ∀ c ∈ s, isPyWs c = true := by
  unfold splitWs
  induction s with
  | nil => simp [splitWsAux]
  | cons c rest ih =>
    by_cases hc : isPyWs c
    · simp only [splitWsAux, hc, if_true, List.isEmpty_nil, List.mem_cons]
      rw [ih]
      constructor
      · intro h x hx
        rcases hx with rfl | hx
        · exact hc
        · exact h x hx
      · intro h x hx
        exact h x (Or.inr hx)
    · simp only [splitWsAux, hc, if_false, Bool.false_eq_true]
      constructor
      · intro h
        exact absurd h (splitWsAux_ne_nil rest [c] (by simp))
      · intro h
        exact absurd (h c (List.mem_cons_self c rest)) (by simpa using hc)

theorem pyStrip_eq_nil_iff (s : Str) :
    pyStrip s = [] ↔ ∀ c ∈ s, isPyWs c = true := by
  unfold pyStrip trimBy
  rw [List.reverse_eq_nil_iff, List.dropWhile_eq_nil_iff]
  constructor
  · intro h c hc
    by_cases hcs : c ∈ s.dropWhile isPyWs
    · exact h c (List.mem_reverse.mpr hcs)
    · have hsplit : s = s.takeWhile isPyWs ++ s.dropWhile isPyWs :=
        (List.takeWhile_append_dropWhile _ _).symm
      rw [hsplit, List.mem_append] at hc
      rcases hc with hc | hc
      · exact List.mem_takeWhile_imp hc
      · exact absurd hc hcs
  · intro h c hc
    rw [List.mem_reverse] at hc
    exact h c (List.dropWhile_subset isPyWs hc)

theorem splitWs_words_ne_nil (s : Str) :
    ∀ w ∈ splitWs s, w ≠ [] := by
  unfold splitWs
  suffices h : ∀ acc w, w ∈ splitWsAux s acc → w ≠ [] from h []
  induction s with
  | nil =>
    intro acc w hw
    simp only [splitWsAux] at hw
    split at hw
    · cases hw
    · rw [List.mem_singleton] at hw
      subst hw
      next hne =>
        simpa using hne
  | cons c rest ih =>
    intro acc w hw
    simp only [splitWsAux] at hw
    by_cases hc : isPyWs c
    · rw [if_pos hc] at hw
      split at hw
      · exact ih [] w hw
      · rcases List.mem_cons.mp hw with rfl | hw
        · next hne => simpa using hne
        · exact ih [] w hw
    · rw [if_neg hc] at hw
      exact ih _ w hw

theorem cleanedOf_eq_nil_iff (s : Str) :
    cleanedOf s = [] ↔ splitWs s = [] := by
  unfold cleanedOf
  cases hsp : splitWs s with
  | nil => simp [joinSpace]
  | cons w ws =>
    have hw : w ≠ [] := splitWs_words_ne_nil s w (hsp ▸ List.mem_cons_self w ws)
    cases ws with
    | nil =>
      simp only [joinSpace]
      constructor
      · intro h; exact absurd h hw
      · intro h; cases h
    | cons v vs =>
      simp only [joinSpace]
      constructor
      · intro h
        have := congrArg List.length h
        simp at this
      · intro h; cases h

theorem cleanedOf_pyStrip (s : Str) : cleanedOf (pyStrip s) = cleanedOf s := by
  unfold cleanedOf
  rw [splitWs_pyStrip]

/-! ## Store lemmas -/

theorem countP_filter_le (p q : Row → Bool) (l : List Row) :
    (l.filter q).countP p ≤ l.countP p :=
  (List.filter_sublist l).countP_le p

theorem dupFree_insertStep (ow : Bool) (bid : Str) (st : LoopState)
    (r : InputRecord) (h : DupFree st.rows) :
    DupFree (insertStep ow bid st r).rows := by
  unfold insertStep
  by_cases hkey : (keyOf r).isEmpty
  · simpa [hkey] using h
  · simp only [hkey]
    by_cases hany : st.rows.any (fun row => sqlNormKey row.domain == keyOf r)
    · cases ow with
      | false => simpa [hany] using h
      | true =>
        simp only [hany, if_true, if_false, Bool.false_eq_true]
        intro k
        rw [List.countP_append]
        by_cases hk : k = keyOf r
        · subst hk
          have hzero : (st.rows.filter
              (fun row => !(sqlNormKey row.domain == keyOf r))).countP
              (fun row => sqlNormKey row.domain == keyOf r) = 0 := by
            rw [List.countP_eq_zero]
            intro a ha
            have := (List.mem_filter.mp ha).2
            simpa using this
          rw [hzero]
          simp [sqlNormKey_rowOfInput]
        · have hone : ([rowOfInput r bid]).countP
              (fun row => sqlNormKey row.domain == k) = 0 := by
            rw [List.countP_eq_zero]
            intro a ha
            rw [List.mem_singleton] at ha
            subst ha
            simp [sqlNormKey_rowOfInput, Ne.symm hk]
          rw [hone]
          have := countP_filter_le (fun row => sqlNormKey row.domain == k)
            (fun row => !(sqlNormKey row.domain == keyOf r)) st.rows
          have hst := h k
          omega
    · simp only [hany, if_false, Bool.false_eq_true]
      intro k
      rw [List.countP_append]
      by_cases hk : k = keyOf r
      · subst hk
        have hzero : st.rows.countP
            (fun row => sqlNormKey row.domain == keyOf r) = 0 := by
          rw [List.countP_eq_zero]
          intro a ha
          have := List.any_eq_false.mp (Bool.of_not_eq_true hany) a ha
          simpa using this
        rw [hzero]
        simp [sqlNormKey_rowOfInput]
      · have hone : ([rowOfInput r bid]).countP
            (fun row => sqlNormKey row.domain == k) = 0 := by
          rw [List.countP_eq_zero]
          intro a ha
          rw [List.mem_singleton] at ha
          subst ha
          simp [sqlNormKey_rowOfInput, Ne.symm hk]
        rw [hone]
        have hst := h k
        omega

theorem dupFree_insertFold (ow : Bool) (bid : Str) (rs : List InputRecord)
    (st : LoopState) (h : DupFree st.rows) :
    DupFree ((rs.foldl (insertStep ow bid) st).rows) := by
  induction rs generalizing st with
  | nil => simpa using h
  | cons r rest ih =>
    rw [List.foldl_cons]
    exact ih _ (dupFree_insertStep ow bid st r h)

theorem dupFree_insert_results (db : DB) (rs : List InputRecord)
    (bid : Option Str) (now : Nat) (hc ow : Bool) (h : DupFree db.results) :
    DupFree (insert_results db rs bid now hc ow).1.results := by
  unfold insert_results
  exact dupFree_insertFold ow _ rs ⟨db.results, ⟨0, 0, 0⟩⟩ h

theorem dupFree_delete_batch (db : DB) (bid : Str) (h : DupFree db.results) :
    DupFree (delete_batch db bid).1.results := by
  unfold delete_batch
  intro k
  exact Nat.le_trans (countP_filter_le _ _ db.results) (h k)

theorem dupFree_applyOp (db : DB) (op : StoreOp) (h : DupFree db.results) :
    DupFree (applyOp db op).results := by
  cases op with
  | insert rs bid now hc ow => exact dupFree_insert_results db rs bid now hc ow h
  | deleteBatch bid => exact dupFree_delete_batch db bid h

/-! ## Pipeline lemmas -/

theorem foldl_set_getElem? (f : Nat → Option InputRecord) :
    ∀ (order : List Nat) (slots : List (Option InputRecord)) (i : Nat),
      (order.foldl (fun s j => s.set j (f j)) slots)[i]? =
        if i ∈ order ∧ i < slots.length then some (f i) else slots[i]? := by
  intro order
  induction order with
  | nil =>
    intro slots i
    simp
  | cons j rest ih =>
    intro slots i
    rw [List.foldl_cons, ih]
    by_cases hmem : i ∈ rest
    · by_cases hlen : i < slots.length
      · rw [if_pos ⟨hmem, by simpa using hlen⟩,
          if_pos ⟨List.mem_cons_of_mem j hmem, hlen⟩]
      · rw [if_neg (fun hcon => hlen (by simpa using hcon.2)),
          if_neg (fun hcon => hlen hcon.2)]
        by_cases hij : i = j
        · subst hij
          rw [List.set_eq_of_length_le (by omega)]
        · rw [List.getElem?_set_ne (Ne.symm hij)]
    · rw [if_neg (by simp [hmem])]
      by_cases hij : i = j
      · subst hij
        by_cases hlen : i < slots.length
        · rw [List.getElem?_set_self hlen,
            if_pos ⟨List.mem_cons_self i rest, hlen⟩]
        · rw [List.set_eq_of_length_le (by omega), if_neg (by omega)]
      · rw [List.getElem?_set_ne (Ne.symm hij)]
        rw [if_neg (by
          intro hcon
          rcases List.mem_cons.mp hcon.1 with h | h
          · exact hij h
          · exact hmem h)]

theorem cliCollect_covered (doms : List Str)
    (proc : Str → Option InputRecord) (order : List Nat)
    (h : ∀ i, i < doms.length → i ∈ order) :
    cliCollect doms proc order = doms.map proc := by
  apply List.ext_getElem?
  intro i
  unfold cliCollect
  rw [foldl_set_getElem? (fun j => (doms[j]?).bind proc) order _ i]
  by_cases hlen : i < doms.length
  · rw [if_pos ⟨h i hlen, by simpa using hlen⟩, List.getElem?_map]
    rw [List.getElem?_eq_getElem hlen]
    rfl
  · rw [if_neg (by simp [hlen]), List.getElem?_map,
      List.getElem?_eq_none (by simpa using Nat.le_of_not_lt hlen),
      List.getElem?_eq_none (by simpa using Nat.le_of_not_lt hlen)]
    rfl

theorem cliCollect_of_perm (doms : List Str)
    (proc : Str → Option InputRecord) (order : List Nat)
    (h : order.Perm (List.range doms.length)) :
    cliCollect doms proc order = doms.map proc :=
  cliCollect_covered doms proc order (fun _ hi =>
    h.mem_iff.mpr (List.mem_range.mpr hi))

theorem dictGet_insert (m : List (Str × InputRecord)) (k : Str)
    (v : InputRecord) (k' : Str) :
    dictGet (dictInsert m k v) k' =
      if k' = k then some v else dictGet m k' := by
  induction m with
  | nil =>
    simp only [dictInsert, dictGet]
    by_cases h : k' = k
    · subst h; simp
    · simp [Ne.symm h, h]
  | cons p rest ih =>
    simp only [dictInsert]
    by_cases hp : p.1 == k
    · rw [if_pos hp]
      have hp' : p.1 = k := by simpa using hp
      by_cases h : k' = k
      · subst h; simp [dictGet]
      · simp only [dictGet, if_neg h]
        rw [if_neg (by simpa using Ne.symm h), if_neg (by
          rw [hp']
          simpa using Ne.symm h)]
    · rw [if_neg hp]
      simp only [dictGet]
      by_cases hpk : p.1 == k'
      · rw [if_pos hpk, if_pos hpk]
        by_cases h : k' = k
        · subst h
          exact absurd hpk hp
        · rw [if_neg h]
      · rw [if_neg hpk, if_neg hpk, ih]

theorem dictGet_foldl_key (m : List (Str × InputRecord))
    (rs : List InputRecord) (d : Str) :
    dictGet (rs.foldl (fun m r => dictInsert m (r.domain.getD []) r) m) d =
      match rs.reverse.find? (fun r => r.domain.getD [] == d) with
      | some r => some r
      | none => dictGet m d := by
  induction rs generalizing m with
  | nil => simp
  | cons r rest ih =>
    rw [List.foldl_cons, ih, List.reverse_cons, List.find?_append]
    cases hfind : rest.reverse.find? (fun r => r.domain.getD [] == d) with
    | some r' => simp [Option.or]
    | none =>
      simp only [Option.or, dictGet_insert]
      cases hr : (if d = r.domain.getD [] then some r else dictGet m d) with
      | none =>
        split at hr
        · cases hr
        · next hne =>
          simp only [List.find?_singleton]
          rw [if_neg (by simpa using Ne.symm hne)]
          exact hr.symm ▸ rfl
      | some v =>
        split at hr
        · next heq =>
          injection hr with hr
          subst hr
          simp only [List.find?_singleton]
          rw [if_pos (by simpa using heq.symm)]
        · next hne =>
          simp only [List.find?_singleton]
          rw [if_neg (by simpa using Ne.symm hne)]
          exact hr ▸ rfl

theorem find?_of_unique {α : Type} (p : α → Bool) (l : List α) (x : α)
    (hx : x ∈ l) (hpx : p x = true)
    (huniq : ∀ y ∈ l, p y = true → y = x) :
    l.find? p = some x := by
  induction l with
  | nil => cases hx
  | cons y rest ih =>
    rw [List.find?_cons]
    cases hpy : p y with
    | true =>
      have := huniq y (List.mem_cons_self y rest) hpy
      rw [this]
    | false =>
      rcases List.mem_cons.mp hx with rfl | hx'
      · rw [hpy] at hpx; cases hpx
      · exact ih hx' (fun y hy hp => huniq y (List.mem_cons_of_mem _ hy) hp)

theorem dictGet_finalResultsMap_none (rs : List InputRecord) (d : Str)
    (h : ∀ r ∈ rs, r.domain.getD [] ≠ d) :
    dictGet (finalResultsMap rs) d = none := by
  unfold finalResultsMap
  rw [dictGet_foldl_key]
  rw [(List.find?_eq_none).mpr (by
    intro r hr
    simp only [beq_iff_eq]
    exact h r (List.mem_reverse.mp hr))]
  rfl

theorem dictGet_finalResultsMap_some (rs : List InputRecord)
    (r : InputRecord) (hr : r ∈ rs)
    (hnd : (rs.map (fun r => r.domain.getD [])).Nodup) :
    dictGet (finalResultsMap rs) (r.domain.getD []) = some r := by
  unfold finalResultsMap
  rw [dictGet_foldl_key]
  have huniq : ∀ y ∈ rs.reverse,
      (y.domain.getD [] == r.domain.getD []) = true → y = r := by
    intro y hy hp
    rw [List.mem_reverse] at hy
    exact List.inj_on_of_nodup_map hnd hy hr (by simpa using hp)
  rw [find?_of_unique _ _ r (List.mem_reverse.mpr hr) (by simp) huniq]

theorem insertFold_all_new (ow : Bool) (bid : Str) :
    ∀ (rs : List InputRecord) (st : LoopState),
      (∀ r ∈ rs, keyOf r ≠ []) →
      (∀ r ∈ rs, ∀ row ∈ st.rows, sqlNormKey row.domain ≠ keyOf r) →
      ((rs.map keyOf).Nodup) →
      (rs.foldl (insertStep ow bid) st).rows
        = st.rows ++ rs.map (fun r => rowOfInput r bid) := by
  intro rs
  induction rs with
  | nil => intro st _ _ _; simp
  | cons r rest ih =>
    intro st hkeys hfresh hnd
    rw [List.foldl_cons]
    have hkey : keyOf r ≠ [] := hkeys r (List.mem_cons_self r rest)
    have hstep : insertStep ow bid st r =
        ⟨st.rows ++ [rowOfInput r bid],
          { st.counts with inserted := st.counts.inserted + 1 }⟩ := by
      unfold insertStep
      rw [if_neg (by simpa using hkey)]
      rw [if_neg (by
        simp only [List.any_eq_true, not_exists, not_and, beq_iff_eq]
        intro row hrow hcon
        exact hfresh r (List.mem_cons_self r rest) row hrow hcon)]
    rw [hstep]
    have hnd' : keyOf r ∉ rest.map keyOf ∧ (rest.map keyOf).Nodup := by
      rw [List.map_cons, List.nodup_cons] at hnd
      exact hnd
    rw [ih _ (fun x hx => hkeys x (List.mem_cons_of_mem r hx))
      (by
        intro x hx row hrow
        rw [List.mem_append] at hrow
        rcases hrow with hrow | hrow
        · exact hfresh x (List.mem_cons_of_mem r hx) row hrow
        · rw [List.mem_singleton] at hrow
          subst hrow
          rw [sqlNormKey_rowOfInput]
          intro hcon
          have hmem : keyOf x ∈ rest.map keyOf := List.mem_map_of_mem keyOf hx
          rw [← hcon] at hmem
          exact hnd'.1 hmem)
      hnd'.2]
    simp

theorem dupFree_nil : DupFree ([] : List Row) := by
  intro k
  simp

theorem dupFree_foldl_ops (ops : List StoreOp) :
    ∀ db : DB, DupFree db.results →
      DupFree ((ops.foldl applyOp db).results) := by
  induction ops with
  | nil => intro db h; simpa using h
  | cons op rest ih =>
    intro db h
    rw [List.foldl_cons]
    exact ih _ (dupFree_applyOp db op h)

theorem insert_results_batches_empty (rs : List InputRecord)
    (bidO : Option Str) (now : Nat) (ow : Bool) :
    (insert_results emptyDB rs bidO now true ow).1.batches
      = [⟨bidO.getD (dbBatchId now), rs.length, "completed".data⟩] := by
  unfold insert_results emptyDB upsertBatchMeta completeBatches insertBid
  simp

theorem dictGet_finalResultsMap_key (rs : List InputRecord) (d : Str)
    (r' : InputRecord)
    (h : dictGet (finalResultsMap rs) d = some r') :
    r'.domain.getD [] = d := by
  unfold finalResultsMap at h
  rw [dictGet_foldl_key] at h
  cases hf : rs.reverse.find? (fun r => r.domain.getD [] == d) with
  | none =>
    rw [hf] at h
    cases h
  | some r'' =>
    rw [hf] at h
    injection h with h
    subst h
    have := List.find?_some hf
    simpa using this

theorem filterMap_domains_sublist (f : Str → Option InputRecord)
    (hf : ∀ d r, f d = some r → r.domain.getD [] = d) :
    ∀ inputs : List Str,
      ((inputs.filterMap f).map (fun r => r.domain.getD [])).Sublist inputs := by
  intro inputs
  induction inputs with
  | nil => simp
  | cons d rest ih =>
    cases hfd : f d with
    | none =>
      rw [List.filterMap_cons_none hfd]
      exact ih.cons d
    | some r =>
      rw [List.filterMap_cons_some hfd, List.map_cons, hf d r hfd]
      exact ih.cons₂ d

theorem cliToProcess_fresh (inputs : List Str) :
    cliToProcess freshCliState inputs false = inputs := by
  unfold cliToProcess cliSkipSet freshCliState csvDomains csvReadRows
    dbDomains emptyDB
  simp

theorem cliExisting_fresh (ow : Bool) : cliExisting freshCliState ow = [] := by
  unfold cliExisting freshCliState csvReadRows
  cases ow <;> rfl

theorem successes_of_map_proc (proc : Str → Option InputRecord)
    (inputs : List Str) :
    (inputs.map proc).filterMap id = inputs.filterMap proc := by
  rw [List.filterMap_map]
  rfl

theorem dictGet_fmap_eq_proc (proc : Str → Option InputRecord)
    (inputs : List Str)
    (hecho : ∀ d ∈ inputs, ∀ r, proc d = some r → r.domain = some d)
    (d : Str) (hd : d ∈ inputs) :
    dictGet (finalResultsMap (inputs.filterMap proc)) d = proc d := by
  unfold finalResultsMap
  rw [dictGet_foldl_key]
  cases hf : (inputs.filterMap proc).reverse.find?
      (fun r => r.domain.getD [] == d) with
  | some r' =>
    have hmem : r' ∈ inputs.filterMap proc :=
      List.mem_reverse.mp (List.mem_of_find?_eq_some hf)
    have hkey := List.find?_some hf
    obtain ⟨d', hd', hp⟩ := List.mem_filterMap.mp hmem
    have hdom := hecho d' hd' r' hp
    have hdd : d' = d := by
      rw [hdom] at hkey
      simpa using hkey
    subst hdd
    rw [hp]
  | none =>
    cases hp : proc d with
    | none => rfl
    | some r =>
      exfalso
      have hmem : r ∈ inputs.filterMap proc :=
        List.mem_filterMap.mpr ⟨d, hd, hp⟩
      apply List.find?_eq_none.mp hf r (List.mem_reverse.mpr hmem)
      have hdom := hecho d hd r hp
      rw [hdom]
      simp

theorem cliOutput_echo (inputs : List Str)
    (proc : Str → Option InputRecord) (order : List Nat)
    (hperm : order.Perm (List.range inputs.length))
    (hecho : ∀ d ∈ inputs, ∀ r, proc d = some r → r.domain = some d) :
    cliOutput freshCliState inputs proc order false
      = inputs.filterMap proc := by
  unfold cliOutput cliSuccesses
  rw [cliExisting_fresh, cliToProcess_fresh,
    cliCollect_of_perm inputs proc order hperm, successes_of_map_proc,
    List.nil_append]
  exact List.filterMap_congr
    (fun d hd => dictGet_fmap_eq_proc proc inputs hecho d hd)

theorem cliRun_echo (inputs : List Str) (proc : Str → Option InputRecord)
    (order : List Nat) (now : Nat)
    (hperm : order.Perm (List.range inputs.length))
    (hecho : ∀ d ∈ inputs, ∀ r, proc d = some r → r.domain = some d)
    (hne : inputs ≠ []) :
    cliRun freshCliState inputs proc order false now =
      { state := ⟨(insert_results emptyDB (inputs.filterMap proc)
            none now true false).1,
          some ((inputs.filterMap proc).map csvOfRecord)⟩
        output := inputs.filterMap proc
        processed := inputs.length
        batchId := some (insert_results emptyDB (inputs.filterMap proc)
          none now true false).2.2 } := by
  unfold cliRun
  rw [cliToProcess_fresh, if_neg (by simpa using hne),
    cliOutput_echo inputs proc order hperm hecho]
  rfl

theorem filterMap_keys_of_total (proc : Str → Option InputRecord) :
    ∀ inputs : List Str,
      (∀ d ∈ inputs, ∃ r, proc d = some r ∧ r.domain = some d) →
      (inputs.filterMap proc).map keyOf = inputs.map pyNormKey := by
  intro inputs
  induction inputs with
  | nil => intro _; simp
  | cons d rest ih =>
    intro htot
    obtain ⟨r, hr, hdom⟩ := htot d (List.mem_cons_self d rest)
    rw [List.filterMap_cons_some hr, List.map_cons, List.map_cons,
      ih (fun x hx => htot x (List.mem_cons_of_mem d hx))]
    unfold keyOf
    rw [hdom]
    rfl

theorem cliRun_empty_toProcess (st : CliState) (inputs : List Str)
    (proc : Str → Option InputRecord) (order : List Nat) (ow : Bool)
    (now : Nat) (h : cliToProcess st inputs ow = []) :
    (cliRun st inputs proc order ow now).output = [] ∧
    (cliRun st inputs proc order ow now).processed = 0 ∧
    (cliRun st inputs proc order ow now).batchId = none := by
  unfold cliRun
  rw [if_pos (by simpa using h)]
  refine ⟨?_, ?_, ?_⟩ <;> (split <;> first | rfl | (split <;> rfl))

theorem cliRun_skip_with_existing (st : CliState) (inputs : List Str)
    (proc : Str → Option InputRecord) (order : List Nat) (ow : Bool)
    (now : Nat) (h : cliToProcess st inputs ow = [])
    (hex : cliExisting st ow ≠ []) :
    (cliRun st inputs proc order ow now).state.db
      = (insert_results st.db (cliExisting st ow) none now false false).1 := by
  unfold cliRun
  rw [if_pos (by simpa using h), if_neg (by simpa using hex)]

theorem insertStep_false_rows (bid : Str) (st : LoopState)
    (r : InputRecord) :
    (insertStep false bid st r).rows = st.rows ∨
    (insertStep false bid st r).rows = st.rows ++ [rowOfInput r bid] := by
  unfold insertStep
  by_cases h1 : (keyOf r).isEmpty
  · rw [if_pos h1]
    exact Or.inl rfl
  · rw [if_neg h1]
    by_cases h2 : st.rows.any (fun row => sqlNormKey row.domain == keyOf r)
    · rw [if_pos h2]
      exact Or.inl rfl
    · rw [if_neg h2]
      exact Or.inr rfl

theorem insertFold_false_rows_prefix (bid : Str) :
    ∀ (rs : List InputRecord) (st : LoopState),
      ∃ extra, (rs.foldl (insertStep false bid) st).rows
        = st.rows ++ extra := by
  intro rs
  induction rs with
  | nil => intro st; exact ⟨[], by simp⟩
  | cons r rest ih =>
    intro st
    rw [List.foldl_cons]
    obtain ⟨extra, hextra⟩ := ih (insertStep false bid st r)
    rcases insertStep_false_rows bid st r with hstep | hstep
    · exact ⟨extra, by rw [hextra, hstep]⟩
    · exact ⟨[rowOfInput r bid] ++ extra, by
        rw [hextra, hstep, List.append_assoc]⟩

theorem insertFold_false_key_present (bid : Str) :
    ∀ (rs : List InputRecord) (st : LoopState) (r : InputRecord),
      r ∈ rs → keyOf r ≠ [] →
      ∃ row ∈ (rs.foldl (insertStep false bid) st).rows,
        sqlNormKey row.domain = keyOf r := by
  intro rs
  induction rs with
  | nil => intro st r hr; cases hr
  | cons a rest ih =>
    intro st r hr hkey
    rw [List.foldl_cons]
    rcases List.mem_cons.mp hr with rfl | hr'
    · have hpresent : ∃ row ∈ (insertStep false bid st r).rows,
          sqlNormKey row.domain = keyOf r := by
        unfold insertStep
        rw [if_neg (by simpa using hkey)]
        by_cases h2 : st.rows.any (fun row => sqlNormKey row.domain == keyOf r)
        · rw [if_pos h2]
          obtain ⟨row, hrow, hprop⟩ := List.any_eq_true.mp h2
          exact ⟨row, hrow, by simpa using hprop⟩
        · rw [if_neg h2]
          exact ⟨rowOfInput r bid,
            List.mem_append_right _ (List.mem_singleton.mpr rfl),
            sqlNormKey_rowOfInput r bid⟩
      obtain ⟨row, hrow, hprop⟩ := hpresent
      obtain ⟨extra, hextra⟩ :=
        insertFold_false_rows_prefix bid rest (insertStep false bid st r)
      exact ⟨row, by rw [hextra]; exact List.mem_append_left _ hrow, hprop⟩
    · exact ih _ r hr' hkey

theorem insertFold_false_all_dup (bid : Str) :
    ∀ (rs : List InputRecord) (st : LoopState),
      (∀ r ∈ rs, keyOf r = [] ∨
        ∃ row ∈ st.rows, sqlNormKey row.domain = keyOf r) →
      (rs.foldl (insertStep false bid) st).rows = st.rows := by
  intro rs
  induction rs with
  | nil => intro st _; rfl
  | cons a rest ih =>
    intro st h
    rw [List.foldl_cons]
    by_cases hk : keyOf a = []
    · have hstep : insertStep false bid st a = st := by
        unfold insertStep
        rw [if_pos (by simpa using hk)]
      rw [hstep]
      exact ih st (fun r hr => h r (List.mem_cons_of_mem a hr))
    · rcases h a (List.mem_cons_self a rest) with hk' | ⟨row, hrow, hprop⟩
      · exact absurd hk' hk
      · have hany : st.rows.any
            (fun row => sqlNormKey row.domain == keyOf a) = true := by
          rw [List.any_eq_true]
          exact ⟨row, hrow, by simpa using hprop⟩
        have hstep : (insertStep false bid st a).rows = st.rows := by
          unfold insertStep
          rw [if_neg (by simpa using hk), if_pos hany]
          rfl
        have hrest := ih (insertStep false bid st a) (by
          intro r hr
          rcases h r (List.mem_cons_of_mem a hr) with hk' | ⟨row', hrow', hprop'⟩
          · exact Or.inl hk'
          · exact Or.inr ⟨row', by rw [hstep]; exact hrow', hprop'⟩)
        rw [hrest, hstep]

theorem insertFold_provenance (ow : Bool) (bid : Str) :
    ∀ (rs : List InputRecord) (st : LoopState) (row : Row),
      row ∈ (rs.foldl (insertStep ow bid) st).rows →
      row ∈ st.rows ∨ ∃ r ∈ rs, row = rowOfInput r bid := by
  intro rs
  induction rs with
  | nil => intro st row hmem; exact Or.inl hmem
  | cons a rest ih =>
    intro st row hmem
    rw [List.foldl_cons] at hmem
    rcases ih (insertStep ow bid st a) row hmem with h | ⟨r, hr, heq⟩
    · have hcases : row ∈ st.rows ∨ row = rowOfInput a bid := by
        unfold insertStep at h
        by_cases h1 : (keyOf a).isEmpty
        · rw [if_pos h1] at h
          exact Or.inl h
        · rw [if_neg h1] at h
          by_cases h2 : st.rows.any
              (fun row => sqlNormKey row.domain == keyOf a)
          · rw [if_pos h2] at h
            cases ow with
            | false => exact Or.inl h
            | true =>
              rcases List.mem_append.mp h with h' | h'
              · exact Or.inl (List.mem_filter.mp h').1
              · exact Or.inr (List.mem_singleton.mp h')
          · rw [if_neg h2] at h
            rcases List.mem_append.mp h with h' | h'
            · exact Or.inl h'
            · exact Or.inr (List.mem_singleton.mp h')
      rcases hcases with h' | h'
      · exact Or.inl h'
      · exact Or.inr ⟨a, List.mem_cons_self a rest, h'⟩
    · exact Or.inr ⟨r, List.mem_cons_of_mem a hr, heq⟩

theorem subAt_refl : ∀ l : Str, subAt l l = true := by
  intro l
  induction l with
  | nil => rfl
  | cons c rest ih => simp [subAt, ih]

theorem containsSub_self (l : Str) : containsSub l l = true := by
  cases l with
  | nil => rfl
  | cons c rest =>
    unfold containsSub
    rw [subAt_refl]
    rfl

theorem take_one_ne_nil {l : List Row} (h : l ≠ []) : l.take 1 ≠ [] := by
  cases l with
  | nil => exact absurd rfl h
  | cons a t => simp

theorem keyOf_csvOfRecord (r : InputRecord) :
    keyOf (csvOfRecord r) = keyOf r := rfl

theorem flaskSplitStep_nil (db : DB) (acc : List Str × List Row) (d : Str)
    (h : getResultsDomain1 db d = []) :
    flaskSplitStep db acc d = (acc.1 ++ [d], acc.2) := by
  unfold flaskSplitStep
  rw [h]

theorem flaskSplitStep_cons (db : DB) (acc : List Str × List Row) (d : Str)
    (r : Row) (rs : List Row) (h : getResultsDomain1 db d = r :: rs) :
    flaskSplitStep db acc d = (acc.1, acc.2 ++ (r :: rs)) := by
  unfold flaskSplitStep
  rw [h]

theorem flaskSplit_fst (db : DB) :
    ∀ (domains : List Str) (acc : List Str × List Row),
      (domains.foldl (flaskSplitStep db) acc).1
      = acc.1 ++ domains.filter (fun d => (getResultsDomain1 db d).isEmpty) := by
  intro domains
  induction domains with
  | nil => intro acc; simp
  | cons d rest ih =>
    intro acc
    rw [List.foldl_cons, List.filter_cons]
    cases hres : getResultsDomain1 db d with
    | nil =>
      rw [flaskSplitStep_nil db acc d hres, ih, if_pos (by simp [hres])]
      simp
    | cons r rs =>
      rw [flaskSplitStep_cons db acc d r rs hres, ih, if_neg (by simp [hres])]

theorem flaskSplit_fst_eq (db : DB) (domains : List Str) :
    (flaskSplit db domains).1
      = domains.filter (fun d => (getResultsDomain1 db d).isEmpty) := by
  unfold flaskSplit
  rw [flaskSplit_fst]
  rfl

theorem flaskSplit_emptyDB (domains : List Str) :
    flaskSplit emptyDB domains = (domains, []) := by
  unfold flaskSplit
  have hgo : ∀ (ds : List Str) (acc : List Str × List Row),
      (ds.foldl (flaskSplitStep emptyDB) acc) = (acc.1 ++ ds, acc.2) := by
    intro ds
    induction ds with
    | nil => intro acc; simp
    | cons d rest ih =>
      intro acc
      rw [List.foldl_cons, flaskSplitStep_nil emptyDB acc d rfl, ih]
      simp
  rw [hgo]
  rfl

theorem flaskClassify_fresh (domains : List Str)
    (proc : Str → Option InputRecord) (order : List Nat) (hc : Bool)
    (now : Nat) (hne : domains ≠ [])
    (hres : flaskProcessOrder domains proc order ≠ []) :
    flaskClassify emptyDB domains proc order false hc now
      = some ({ results := (flaskProcessOrder domains proc order).map Sum.inr
                batch_id := some (flaskBatchId now)
                total_processed := (flaskProcessOrder domains proc order).length
                skipped := 0 },
              (insert_results emptyDB (flaskProcessOrder domains proc order)
                (some (flaskBatchId now)) now hc false).1) := by
  unfold flaskClassify flaskToProcess flaskExisting
  rw [flaskSplit_emptyDB]
  rw [if_neg (by simpa using hne), if_neg (by simpa using hne)]
  simp [hres]

theorem ne_nil_not_isEmpty {α : Type} {l : List α} (h : l ≠ []) :
    (!l.isEmpty) = true := by
  cases l with
  | nil => exact absurd rfl h
  | cons a t => rfl

theorem insert_results_all_dup (db : DB) (rs : List InputRecord)
    (batchId : Option Str) (now : Nat)
    (hdup : ∀ r ∈ rs, keyOf r = [] ∨
      ∃ row ∈ db.results, sqlNormKey row.domain = keyOf r) :
    (insert_results db rs batchId now false false).1 = db := by
  show DB.mk ((rs.foldl (insertStep false (insertBid batchId now))
      ⟨db.results, ⟨0, 0, 0⟩⟩).rows) db.batches = db
  rw [insertFold_false_all_dup (insertBid batchId now) rs
    ⟨db.results, ⟨0, 0, 0⟩⟩ hdup]

/-! ## Claims -/

/-- C3: starting from the empty store, every sequence of store
operations — batch inserts with overwrite true or false, and batch
deletions — preserves the invariant that the store holds at most one
active record per normalised domain key `lower(trim(domain))`,
including when a single insert call contains two records that normalise
to the same domain. -/
theorem store_at_most_one_per_normalized_domain (ops : List StoreOp) :
    DupFree (applyOps ops).results := by
  unfold applyOps
  exact dupFree_foldl_ops ops emptyDB dupFree_nil

/-- C9 counterexample: the store generates its batch id purely from a
seconds-resolution timestamp with no disambiguation, so two batch
creations at distinct instants of the same second (here microsecond 0
and microsecond 500000) receive the same batch id. -/
theorem dbBatchId_same_second_collision :
    dbBatchId 0 = dbBatchId 500000 ∧ (0 : Nat) ≠ 500000 :=
  ⟨by decide, by decide⟩

/-- C9 amended: the store batch id is a pure function of the second in
which it is generated — any two creations within one second collide —
and the Flask backend variant is likewise a pure function of the
microsecond; neither adds a counter suffix. -/
theorem dbBatchId_pure_function_of_window (t1 t2 : Nat)
    (h : t1 / 1000000 = t2 / 1000000) :
    dbBatchId t1 = dbBatchId t2 ∧
    (t1 = t2 → flaskBatchId t1 = flaskBatchId t2) := by
  constructor
  · unfold dbBatchId
    rw [h]
  · intro he
    rw [he]

/-- C9 amended witness: microseconds 0 and 999999 fall in the same
second and receive the same store batch id. -/
theorem dbBatchId_pure_function_of_window_witness :
    (0 : Nat) / 1000000 = 999999 / 1000000 ∧ dbBatchId 0 = dbBatchId 999999 :=
  ⟨by decide, (dbBatchId_pure_function_of_window 0 999999 (by decide)).1⟩

/-- C10: a record whose domain is absent, empty or whitespace-only is
silently dropped by `insert_results`: the result table and all three
tallies are exactly those of the call without that record, so it is
neither inserted nor counted, and the remaining records are processed
as if it were not in the list.  (The `total_domains` column of the
batch metadata row still counts the dropped record, as it is taken from
`len(results)` before the loop.) -/
theorem insert_results_drops_blank_domain (db : DB) (r : InputRecord)
    (rest : List InputRecord) (bid : Option Str) (now : Nat) (hc ow : Bool)
    (hblank : pyStrip (r.domain.getD []) = []) :
    (insert_results db (r :: rest) bid now hc ow).1.results
      = (insert_results db rest bid now hc ow).1.results ∧
    (insert_results db (r :: rest) bid now hc ow).2.1
      = (insert_results db rest bid now hc ow).2.1 := by
  have hkey : (keyOf r).isEmpty = true := by
    have := (keyOf_eq_nil_iff r).mpr hblank
    simpa using this
  have hstep : insertStep ow (insertBid bid now)
      ⟨db.results, ⟨0, 0, 0⟩⟩ r = ⟨db.results, ⟨0, 0, 0⟩⟩ := by
    unfold insertStep
    rw [if_pos hkey]
  unfold insert_results
  rw [List.foldl_cons, hstep]
  exact ⟨rfl, rfl⟩

/-- C10 witness: a whitespace-only domain record is dropped in a
concrete call. -/
theorem insert_results_drops_blank_domain_witness :
    pyStrip ((({ blankInput with domain := some "   ".data } :
        InputRecord)).domain.getD []) = [] ∧
    ((insert_results emptyDB
        [{ blankInput with domain := some "   ".data },
          echoRecord "a.com".data]
        (some "b1".data) 0 false false).1.results
      = (insert_results emptyDB [echoRecord "a.com".data]
          (some "b1".data) 0 false false).1.results ∧
     (insert_results emptyDB
        [{ blankInput with domain := some "   ".data },
          echoRecord "a.com".data]
        (some "b1".data) 0 false false).2.1
      = (insert_results emptyDB [echoRecord "a.com".data]
          (some "b1".data) 0 false false).2.1) :=
  ⟨by decide,
   insert_results_drops_blank_domain emptyDB
     { blankInput with domain := some "   ".data }
     [echoRecord "a.com".data] (some "b1".data) 0 false false (by decide)⟩

/-- C1: for every batch insert, each record with a nonblank domain is
handled by normalising with `lower(trim(domain))`: if a stored record
with the same normalised domain exists and overwrite is false, the
record is skipped and the stored rows are unchanged; if one exists and
overwrite is true, all stored rows with that normalised domain are
deleted and the new record appended; if none exists, the new record is
appended; and the domain stored is the trimmed original-case input.  In
particular, inserting `Example.com` and then `example.com ` (trailing
space) through `insert_results` with overwrite false leaves the store
unchanged and counts one skip. -/
theorem insert_results_per_record (rows : List Row) (counts : InsertCounts)
    (ow : Bool) (bid : Str) (r : InputRecord) (hkey : keyOf r ≠ []) :
    ((∃ row ∈ rows, sqlNormKey row.domain = keyOf r) →
      (ow = false →
        insertStep ow bid ⟨rows, counts⟩ r =
          ⟨rows, { counts with skipped := counts.skipped + 1 }⟩) ∧
      (ow = true →
        insertStep ow bid ⟨rows, counts⟩ r =
          ⟨rows.filter (fun row => !(sqlNormKey row.domain == keyOf r))
              ++ [rowOfInput r bid],
            { counts with
              inserted := counts.inserted + 1
              updated := counts.updated + 1 }⟩)) ∧
    ((∀ row ∈ rows, sqlNormKey row.domain ≠ keyOf r) →
      insertStep ow bid ⟨rows, counts⟩ r =
        ⟨rows ++ [rowOfInput r bid],
          { counts with inserted := counts.inserted + 1 }⟩) ∧
    (rowOfInput r bid).domain = pyStrip (r.domain.getD []) ∧
    (insert_results
        (insert_results emptyDB [echoRecord "Example.com".data]
          (some "b1".data) 0 false false).1
        [echoRecord "example.com ".data] (some "b2".data) 0 false false).1
      = (insert_results emptyDB [echoRecord "Example.com".data]
          (some "b1".data) 0 false false).1 ∧
    (insert_results
        (insert_results emptyDB [echoRecord "Example.com".data]
          (some "b1".data) 0 false false).1
        [echoRecord "example.com ".data] (some "b2".data) 0 false false).2.1
      = ⟨0, 0, 1⟩ := by
  refine ⟨?_, ?_, rfl, by decide, by decide⟩
  · intro hex
    have hany : (rows.any
        (fun row => sqlNormKey row.domain == keyOf r)) = true := by
      rw [List.any_eq_true]
      obtain ⟨row, hrow, heq⟩ := hex
      exact ⟨row, hrow, by simpa using heq⟩
    constructor
    · rintro rfl
      unfold insertStep
      rw [if_neg (by simpa using hkey), if_pos hany]
      rfl
    · rintro rfl
      unfold insertStep
      rw [if_neg (by simpa using hkey), if_pos hany]
      rfl
  · intro hall
    have hany : (rows.any
        (fun row => sqlNormKey row.domain == keyOf r)) = false := by
      rw [List.any_eq_false]
      intro row hrow
      simpa using hall row hrow
    unfold insertStep
    rw [if_neg (by simpa using hkey), if_neg (by simp [hany])]

/-- C1 witness: with `Example.com` already stored, the record for
`example.com ` (trailing space) is skipped by the per-record step and
only the skip tally moves. -/
theorem insert_results_per_record_witness :
    keyOf (echoRecord "example.com ".data) ≠ [] ∧
    (∃ row ∈ [rowOfInput (echoRecord "Example.com".data) "b1".data],
      sqlNormKey row.domain = keyOf (echoRecord "example.com ".data)) ∧
    insertStep false "b2".data
        ⟨[rowOfInput (echoRecord "Example.com".data) "b1".data], ⟨0, 0, 0⟩⟩
        (echoRecord "example.com ".data)
      = ⟨[rowOfInput (echoRecord "Example.com".data) "b1".data],
          ⟨0, 0, 1⟩⟩ :=
  ⟨by decide, by decide,
   ((insert_results_per_record
      [rowOfInput (echoRecord "Example.com".data) "b1".data] ⟨0, 0, 0⟩
      false "b2".data (echoRecord "example.com ".data) (by decide)).1
      (by decide)).1 rfl⟩

/-- C2 counterexample: the Flask endpoint appends newly produced
results as their futures complete, so with completion order reversed the
reply lists the two domains in completion order, not input order —
refuting the claim that every entry point orders output by input domain
order. -/
theorem flask_output_completion_ordered :
    (flaskClassify emptyDB ["a.com".data, "b.com".data] echoProc [1, 0]
        false true 0).map
        (fun p => p.1.results.map (fun item =>
          match item with
          | Sum.inl row => row.domain
          | Sum.inr q => q.domain.getD []))
      = some ["b.com".data, "a.com".data] ∧
    some ["b.com".data, "a.com".data] ≠ some ["a.com".data, "b.com".data] ∧
    [1, 0].Perm (List.range 2) :=
  ⟨by decide, by decide, by decide⟩

/-- C2 amended: for the CLI pipeline, the run outcome is invariant
under the completion order (any permutation of the dispatched indices
yields the same outcome as index order) and the output records walk the
original input domain order (their domain keys form a sublist of the
input list); the Flask endpoint instead emits new results in completion
order. -/
theorem cli_run_order_independent (st : CliState) (inputs : List Str)
    (proc : Str → Option InputRecord) (order : List Nat) (ow : Bool)
    (now : Nat)
    (h : order.Perm (List.range (cliToProcess st inputs ow).length)) :
    cliRun st inputs proc order ow now
      = cliRun st inputs proc
          (List.range (cliToProcess st inputs ow).length) ow now ∧
    ((cliRun st inputs proc order ow now).output.map
        (fun r => r.domain.getD [])).Sublist inputs := by
  have houtput : cliOutput st inputs proc order ow
      = cliOutput st inputs proc
          (List.range (cliToProcess st inputs ow).length) ow := by
    unfold cliOutput cliSuccesses
    rw [cliCollect_of_perm _ _ _ h, cliCollect_of_perm _ _ _ (List.Perm.refl _)]
  constructor
  · unfold cliRun
    rw [houtput]
  · by_cases hemp : (cliToProcess st inputs ow).isEmpty
    · rw [(cliRun_empty_toProcess st inputs proc order ow now
        (by simpa using hemp)).1]
      simp
    · unfold cliRun
      rw [if_neg hemp]
      exact filterMap_domains_sublist _
        (fun d r hd => dictGet_finalResultsMap_key _ d r hd) inputs

/-- C2 amended witness: a concrete CLI run with reversed completion
order equals the run in index order and its output domains follow the
input order. -/
theorem cli_run_order_independent_witness :
    [1, 0].Perm (List.range
      (cliToProcess freshCliState ["a.com".data, "b.com".data] false).length) ∧
    (cliRun freshCliState ["a.com".data, "b.com".data] echoProc [1, 0] false 0
      = cliRun freshCliState ["a.com".data, "b.com".data] echoProc
          (List.range (cliToProcess freshCliState
            ["a.com".data, "b.com".data] false).length)
          false 0 ∧
    ((cliRun freshCliState ["a.com".data, "b.com".data] echoProc [1, 0]
        false 0).output.map (fun r => r.domain.getD [])).Sublist
      ["a.com".data, "b.com".data]) :=
  ⟨by decide,
   cli_run_order_independent freshCliState ["a.com".data, "b.com".data]
     echoProc [1, 0] false 0 (by decide)⟩

/-- C7: failure isolation in the CLI pipeline — when the task of one
domain fails (its worker returns none, as `process_domain` does on any
exception) while every other domain echoes a record, every other
domain's record still appears at its input-order position (the output
is exactly the input list filtered through the per-domain worker), the
failing domain contributes no record, and the batch is persisted and
completed with status completed. -/
theorem cli_failure_isolation (inputs : List Str) (b : Str)
    (proc : Str → Option InputRecord) (order : List Nat) (now : Nat)
    (hnd : inputs.Nodup)
    (hperm : order.Perm (List.range inputs.length))
    (hb : proc b = none)
    (hecho : ∀ d ∈ inputs, d ≠ b → ∃ r, proc d = some r ∧ r.domain = some d)
    (hne : inputs ≠ []) :
    (cliRun freshCliState inputs proc order false now).output
        = inputs.filterMap proc ∧
    (∀ r ∈ (cliRun freshCliState inputs proc order false now).output,
      r.domain ≠ some b) ∧
    (cliRun freshCliState inputs proc order false now).state.db.batches
        = [⟨dbBatchId now, (inputs.filterMap proc).length,
            "completed".data⟩] := by
  have _hnd := hnd
  have hecho' : ∀ d ∈ inputs, ∀ r, proc d = some r → r.domain = some d := by
    intro d hd r hr
    by_cases hdb : d = b
    · subst hdb
      rw [hb] at hr
      cases hr
    · obtain ⟨r', hr', hdom⟩ := hecho d hd hdb
      rw [hr'] at hr
      injection hr with hr
      subst hr
      exact hdom
  have hrun := cliRun_echo inputs proc order now hperm hecho' hne
  rw [hrun]
  refine ⟨rfl, ?_, ?_⟩
  · intro r hr hcon
    obtain ⟨d, hd, hproc⟩ := List.mem_filterMap.mp hr
    have hdom := hecho' d hd r hproc
    rw [hdom] at hcon
    injection hcon with hcon
    subst hcon
    rw [hb] at hproc
    cases hproc
  · exact insert_results_batches_empty _ none now false

/-- C7 witness: with three domains where the middle one fails, the
other two appear in input order and the batch completes. -/
theorem cli_failure_isolation_witness :
    ["a.com".data, "b.com".data, "c.com".data].Nodup ∧
    (cliRun freshCliState ["a.com".data, "b.com".data, "c.com".data]
        (procExcept "b.com".data) [2, 0, 1] false 0).output
      = ["a.com".data, "b.com".data, "c.com".data].filterMap
          (procExcept "b.com".data) ∧
    (∀ r ∈ (cliRun freshCliState ["a.com".data, "b.com".data, "c.com".data]
        (procExcept "b.com".data) [2, 0, 1] false 0).output,
      r.domain ≠ some "b.com".data) ∧
    (cliRun freshCliState ["a.com".data, "b.com".data, "c.com".data]
        (procExcept "b.com".data) [2, 0, 1] false 0).state.db.batches
      = [⟨dbBatchId 0,
          (["a.com".data, "b.com".data, "c.com".data].filterMap
            (procExcept "b.com".data)).length, "completed".data⟩] :=
  ⟨by decide,
   cli_failure_isolation ["a.com".data, "b.com".data, "c.com".data]
     "b.com".data (procExcept "b.com".data) [2, 0, 1] 0
     (by decide) (by decide) (by decide)
     (fun d _ hdb => ⟨echoRecord d, by
       unfold procExcept
       rw [if_neg (fun hcon => hdb (by simpa using hcon))]
       rfl, rfl⟩)
     (by decide)⟩

/-- C8: for a run of the Flask endpoint without overwrite in which
every submitted domain already has a stored result (so nothing is left
to process), the reply carries the existing records, a null batch id
and a processed count of zero, and the store is returned unchanged —
no batch row is created or completed. -/
theorem flask_all_skipped (db : DB) (domains : List Str)
    (proc : Str → Option InputRecord) (order : List Nat)
    (hc : Bool) (now : Nat) (hne : domains ≠ [])
    (hempty : (flaskSplit db domains).1 = []) :
    flaskClassify db domains proc order false hc now
      = some ({ results := (flaskSplit db domains).2.map Sum.inl
                batch_id := none
                total_processed := 0
                skipped := domains.length }, db) := by
  unfold flaskClassify flaskToProcess flaskExisting
  rw [if_neg (by simpa using hne)]
  rw [if_pos (by
    show (if false then domains else (flaskSplit db domains).1).isEmpty = true
    simpa using hempty)]
  simp

/-- C8 witness: with `a.com` stored, a request for `a.com` alone is
wholly skipped: existing row returned, null batch id, zero processed,
store untouched. -/
theorem flask_all_skipped_witness :
    (["a.com".data] : List Str) ≠ [] ∧
    (flaskSplit
      ⟨[rowOfInput (echoRecord "a.com".data) "b0".data],
        [⟨"b0".data, 1, "completed".data⟩]⟩ ["a.com".data]).1 = [] ∧
    flaskClassify
        ⟨[rowOfInput (echoRecord "a.com".data) "b0".data],
          [⟨"b0".data, 1, "completed".data⟩]⟩
        ["a.com".data] echoProc [0] false true 0
      = some ({ results := (flaskSplit
                  ⟨[rowOfInput (echoRecord "a.com".data) "b0".data],
                    [⟨"b0".data, 1, "completed".data⟩]⟩
                  ["a.com".data]).2.map Sum.inl
                batch_id := none
                total_processed := 0
                skipped := (["a.com".data] : List Str).length },
              ⟨[rowOfInput (echoRecord "a.com".data) "b0".data],
                [⟨"b0".data, 1, "completed".data⟩]⟩) :=
  ⟨by decide, by decide,
   flask_all_skipped
     ⟨[rowOfInput (echoRecord "a.com".data) "b0".data],
       [⟨"b0".data, 1, "completed".data⟩]⟩
     ["a.com".data] echoProc [0] true 0 (by decide) (by decide)⟩

/-- C6 counterexample: a collaborator whose responses always fail JSON
parsing exhausts the two attempts, but the `json.JSONDecodeError`
handler of `classify_site` never sleeps, so no backoff delay at all
occurs between the two attempts — refuting the claim that every
always-malformed collaborator is retried with exponentially growing
backoff delay between attempts. -/
theorem classify_site_json_no_backoff :
    (classify_site "x.com".data (fun _ => AttemptOutcome.jsonError)).2.1
      = 2 ∧
    (classify_site "x.com".data (fun _ => AttemptOutcome.jsonError)).2.2
      = [] :=
  ⟨rfl, rfl⟩

/-- C6 amended: `classify_site` makes exactly two attempts against an
always-failing collaborator and then returns the fallback record
carrying the submitted domain, label Error and confidence 0.0; a
response with all four required fields within the bound is returned
as-is with no visible trace of earlier transient errors; and the
backoff sleep of `2 ** attempts` between the two attempts happens for
transport errors and missing-field responses but not for JSON-decode
failures, which retry immediately. -/
theorem classify_site_retry_policy (domain : Str)
    (outcomes : Nat → AttemptOutcome) :
    (attemptFails (outcomes 0) = true → attemptFails (outcomes 1) = true →
      classify_site domain outcomes
        = (fallbackResult domain 2, 2,
           if outcomes 0 = AttemptOutcome.jsonError then [] else [2])) ∧
    (∀ r, outcomes 0 = AttemptOutcome.ok r → hasAllFields r = true →
      classify_site domain outcomes = (r, 1, [])) ∧
    (∀ r, attemptFails (outcomes 0) = true →
      outcomes 1 = AttemptOutcome.ok r → hasAllFields r = true →
      classify_site domain outcomes
        = (r, 2,
           if outcomes 0 = AttemptOutcome.jsonError then [] else [2])) := by
  refine ⟨?_, ?_, ?_⟩
  · intro h0 h1
    cases ho0 : outcomes 0 with
    | ok r0 =>
      have hr0 : hasAllFields r0 = false := by
        rw [ho0] at h0
        simpa [attemptFails] using h0
      cases ho1 : outcomes 1 with
      | ok r1 =>
        have hr1 : hasAllFields r1 = false := by
          rw [ho1] at h1
          simpa [attemptFails] using h1
        simp [classify_site, classifyGo, ho0, ho1, hr0, hr1]
      | jsonError => simp [classify_site, classifyGo, ho0, ho1, hr0]
      | transportError => simp [classify_site, classifyGo, ho0, ho1, hr0]
    | jsonError =>
      cases ho1 : outcomes 1 with
      | ok r1 =>
        have hr1 : hasAllFields r1 = false := by
          rw [ho1] at h1
          simpa [attemptFails] using h1
        simp [classify_site, classifyGo, ho0, ho1, hr1]
      | jsonError => simp [classify_site, classifyGo, ho0, ho1]
      | transportError => simp [classify_site, classifyGo, ho0, ho1]
    | transportError =>
      cases ho1 : outcomes 1 with
      | ok r1 =>
        have hr1 : hasAllFields r1 = false := by
          rw [ho1] at h1
          simpa [attemptFails] using h1
        simp [classify_site, classifyGo, ho0, ho1, hr1]
      | jsonError => simp [classify_site, classifyGo, ho0, ho1]
      | transportError => simp [classify_site, classifyGo, ho0, ho1]
  · intro r h0 hall
    simp [classify_site, classifyGo, h0, hall]
  · intro r h0 h1 hall
    cases ho0 : outcomes 0 with
    | ok r0 =>
      have hr0 : hasAllFields r0 = false := by
        rw [ho0] at h0
        simpa [attemptFails] using h0
      simp [classify_site, classifyGo, ho0, h1, hr0, hall]
    | jsonError => simp [classify_site, classifyGo, ho0, h1, hall]
    | transportError => simp [classify_site, classifyGo, ho0, h1, hall]

/-- C6 witness: an always transport-failing collaborator gets exactly
two attempts with the single doubling backoff sleep between them and
yields the Error fallback with confidence 0.0. -/
theorem classify_site_retry_policy_witness :
    attemptFails ((fun _ => AttemptOutcome.transportError) 0) = true ∧
    attemptFails ((fun _ => AttemptOutcome.transportError) 1) = true ∧
    classify_site "x.com".data (fun _ => AttemptOutcome.transportError)
      = (fallbackResult "x.com".data 2, 2, [2]) :=
  ⟨rfl, rfl, by
    have h := (classify_site_retry_policy "x.com".data
      (fun _ => AttemptOutcome.transportError)).1 rfl rfl
    simpa using h⟩

set_option maxRecDepth 8000 in
/-- C4 counterexample: on text whose 200-character prefix has its last
space exactly at index 160 (which is exactly `0.8 * 200`), the source
truncates at the hard boundary because its comparison is strict, while
the claim (at least `0.8 * maxLength`) prescribes truncating at the
space, so the two disagree at this input. -/
theorem extract_snippet_boundary_disagrees :
    extract_snippet snipEdgeText [] 200
      = (List.replicate 160 'a' ++ ' ' :: List.replicate 39 'b')
          ++ "...".data ∧
    extract_snippet_spec snipEdgeText [] 200
      = List.replicate 160 'a' ++ "...".data ∧
    extract_snippet snipEdgeText [] 200
      ≠ extract_snippet_spec snipEdgeText [] 200 :=
  ⟨by decide, by decide, by decide⟩

/-- C4 amended: for maxLength 200, the snippet function returns the
sentinel when the whitespace-collapsed combination of the two texts is
empty; the cleaned text verbatim when its length is at most 200 (text
of exactly 200 characters is unmodified); and otherwise the first 200
characters, truncated instead at the last space of that prefix whenever
that space sits strictly past `0.8 * 200 = 160` (not at position 160
itself), with the ellipsis appended in every truncation case. -/
theorem extract_snippet_cases (t o : Str) :
    (cleanedOf (t ++ ' ' :: o) = [] →
      extract_snippet t o 200 = "No content available".data) ∧
    (cleanedOf (t ++ ' ' :: o) ≠ [] →
      (cleanedOf (t ++ ' ' :: o)).length ≤ 200 →
      extract_snippet t o 200 = cleanedOf (t ++ ' ' :: o)) ∧
    (∀ i, 200 < (cleanedOf (t ++ ' ' :: o)).length →
      rfindSpace ((cleanedOf (t ++ ' ' :: o)).take 200) = some i →
      (160 < i →
        extract_snippet t o 200
          = ((cleanedOf (t ++ ' ' :: o)).take 200).take i ++ "...".data) ∧
      (i ≤ 160 →
        extract_snippet t o 200
          = (cleanedOf (t ++ ' ' :: o)).take 200 ++ "...".data)) ∧
    (200 < (cleanedOf (t ++ ' ' :: o)).length →
      rfindSpace ((cleanedOf (t ++ ' ' :: o)).take 200) = none →
      extract_snippet t o 200
        = (cleanedOf (t ++ ' ' :: o)).take 200 ++ "...".data) := by
  have hclean : cleanedOf (pyStrip (t ++ ' ' :: o))
      = cleanedOf (t ++ ' ' :: o) := cleanedOf_pyStrip _
  have hempty : (pyStrip (t ++ ' ' :: o)).isEmpty = true
      ↔ cleanedOf (t ++ ' ' :: o) = [] := by
    rw [List.isEmpty_eq_true, pyStrip_eq_nil_iff, cleanedOf_eq_nil_iff,
      splitWs_eq_nil_iff]
  refine ⟨?_, ?_, ?_, ?_⟩
  · intro h
    unfold extract_snippet
    rw [if_pos (hempty.mpr h)]
  · intro h1 h2
    unfold extract_snippet
    rw [hclean, if_neg (fun hcon => h1 (hempty.mp hcon)), if_pos h2]
  · intro i hlen hfind
    constructor
    · intro hgt
      unfold extract_snippet
      rw [hclean, if_neg (fun hcon => by
          rw [hempty.mp hcon] at hlen
          simp at hlen),
        if_neg (by omega), hfind]
      show (if 10 * i > 8 * 200 then
          ((cleanedOf (t ++ ' ' :: o)).take 200).take i
        else (cleanedOf (t ++ ' ' :: o)).take 200) ++ "...".data = _
      rw [if_pos (by omega)]
    · intro hle
      unfold extract_snippet
      rw [hclean, if_neg (fun hcon => by
          rw [hempty.mp hcon] at hlen
          simp at hlen),
        if_neg (by omega), hfind]
      show (if 10 * i > 8 * 200 then
          ((cleanedOf (t ++ ' ' :: o)).take 200).take i
        else (cleanedOf (t ++ ' ' :: o)).take 200) ++ "...".data = _
      rw [if_neg (by omega)]
  · intro hlen hfind
    unfold extract_snippet
    rw [hclean, if_neg (fun hcon => by
        rw [hempty.mp hcon] at hlen
        simp at hlen),
      if_neg (by omega), hfind]

/-- C4 amended witness: a short text is returned verbatim after
whitespace collapsing. -/
theorem extract_snippet_cases_witness :
    cleanedOf ("hello  world".data ++ ' ' :: []) ≠ [] ∧
    (cleanedOf ("hello  world".data ++ ' ' :: [])).length ≤ 200 ∧
    extract_snippet "hello  world".data [] 200
      = cleanedOf ("hello  world".data ++ ' ' :: []) :=
  ⟨by decide, by decide,
   (extract_snippet_cases "hello  world".data []).2.1
     (by decide) (by decide)⟩

/-- C5 counterexample: the Flask endpoint has no CSV read-back and its
duplicate check is a LIKE substring match against the stored trimmed
domain, so a submission with trailing whitespace never matches the row
its own first run stored: on the list with the single entry `a.com `
(trailing space) the first run processes the domain and stores its
trimmed row, and a second run of the endpoint over the resulting store
processes it again — the second processed count is 1, not 0 — even
though the domain succeeded in the first run and the store still holds
a single record. -/
theorem flask_second_run_reprocesses_untrimmed :
    ((flaskClassify emptyDB ["a.com ".data] echoProc [0] false true 0).map
      (fun p => p.1.total_processed)) = some 1 ∧
    ((flaskClassify emptyDB ["a.com ".data] echoProc [0] false true 0).map
      (fun p => p.2.results.map (fun row => row.domain)))
      = some ["a.com".data] ∧
    ((flaskClassify emptyDB ["a.com ".data] echoProc [0] false true 0).bind
      (fun p =>
        (flaskClassify p.2 ["a.com ".data] echoProc [0] false true 1).map
          (fun q => q.1.total_processed))) = some 1 ∧
    ((flaskClassify emptyDB ["a.com ".data] echoProc [0] false true 0).bind
      (fun p =>
        (flaskClassify p.2 ["a.com ".data] echoProc [0] false true 1).map
          (fun q => q.2.results.length))) = some 1 ∧
    (1 : Nat) ≠ 0 :=
  ⟨by decide, by decide, by decide, by decide, by decide⟩

/-- C5 amended: running the pipeline twice on the same list without
overwrite never leaves duplicate active records per normalised domain.
For the CLI pipeline — whose second run re-reads the output CSV and
skips every exact domain string recorded there — no domain that
succeeded in the first run is dispatched again, and when every domain
succeeds the second run processes zero domains and leaves the store
exactly as the first run left it.  The Flask endpoint behaves the same
for trimmed submissions; a submission with surrounding whitespace never
matches its stored trimmed row and is reprocessed on every run (see the
counterexample). -/
theorem pipeline_second_run_idempotent (inputs : List Str)
    (proc : Str → Option InputRecord) (order1 order2 : List Nat)
    (now1 now2 : Nat) (hc1 hc2 : Bool)
    (hecho : ∀ d ∈ inputs, ∀ r, proc d = some r → r.domain = some d)
    (hnonempty : ∀ d ∈ inputs, d ≠ [])
    (hperm1 : order1.Perm (List.range inputs.length)) :
    (∀ d ∈ inputs, (proc d).isSome = true →
      d ∉ cliToProcess
        (cliRun freshCliState inputs proc order1 false now1).state
        inputs false) ∧
    DupFree
      (cliRun freshCliState inputs proc order1 false now1).state.db.results ∧
    ((∀ d ∈ inputs, (proc d).isSome = true) →
      (cliRun (cliRun freshCliState inputs proc order1 false now1).state
          inputs proc order2 false now2).processed = 0 ∧
      (cliRun (cliRun freshCliState inputs proc order1 false now1).state
          inputs proc order2 false now2).state.db
        = (cliRun freshCliState inputs proc order1 false now1).state.db) ∧
    ((∀ d ∈ inputs, pyStrip d = d) →
      (∀ d ∈ inputs, (proc d).isSome = true) →
      ∀ reply1 db1,
        flaskClassify emptyDB inputs proc order1 false hc1 now1
          = some (reply1, db1) →
        flaskClassify db1 inputs proc order2 false hc2 now2
          = some ({ results := (flaskSplit db1 inputs).2.map Sum.inl
                    batch_id := none
                    total_processed := 0
                    skipped := inputs.length }, db1)) := by
  rcases eq_or_ne inputs [] with rfl | hne
  · refine ⟨?_, ?_, ?_, ?_⟩
    · intro d hd
      cases hd
    · exact dupFree_nil
    · intro _
      exact ⟨rfl, rfl⟩
    · intro _ _ reply1 db1 heq
      exact Option.noConfusion heq
  · have hrun1 := cliRun_echo inputs proc order1 now1 hperm1 hecho hne
    have hst1 : (cliRun freshCliState inputs proc order1 false now1).state
        = ⟨(insert_results emptyDB (inputs.filterMap proc)
              none now1 true false).1,
           some ((inputs.filterMap proc).map csvOfRecord)⟩ := by
      rw [hrun1]
    have hmemskip : ∀ d ∈ inputs, (proc d).isSome = true →
        d ∈ cliSkipSet
          ⟨(insert_results emptyDB (inputs.filterMap proc)
              none now1 true false).1,
           some ((inputs.filterMap proc).map csvOfRecord)⟩ := by
      intro d hd hsome
      obtain ⟨r, hr⟩ := Option.isSome_iff_exists.mp hsome
      have hdom := hecho d hd r hr
      have hrmem : r ∈ inputs.filterMap proc :=
        List.mem_filterMap.mpr ⟨d, hd, hr⟩
      unfold cliSkipSet csvDomains csvReadRows
      apply List.mem_append_left
      refine List.mem_map.mpr ⟨csvOfRecord r, List.mem_filter.mpr
        ⟨List.mem_map.mpr ⟨r, hrmem, rfl⟩, ?_⟩, ?_⟩
      · show (!((csvOfRecord r).domain.getD []).isEmpty) = true
        show (!(r.domain.getD []).isEmpty) = true
        rw [hdom]
        exact ne_nil_not_isEmpty (hnonempty d hd)
      · show (csvOfRecord r).domain.getD [] = d
        show r.domain.getD [] = d
        rw [hdom]
        rfl
    refine ⟨?_, ?_, ?_, ?_⟩
    · intro d hd hsome
      rw [hst1]
      intro hcon
      have hmem := hmemskip d hd hsome
      have hany : (cliSkipSet
          ⟨(insert_results emptyDB (inputs.filterMap proc)
              none now1 true false).1,
           some ((inputs.filterMap proc).map csvOfRecord)⟩).any
          (fun x => x == d) = true :=
        List.any_eq_true.mpr ⟨d, hmem, by simp⟩
      have hcon' : d ∈ inputs.filter (fun y => !((cliSkipSet
          ⟨(insert_results emptyDB (inputs.filterMap proc)
              none now1 true false).1,
           some ((inputs.filterMap proc).map csvOfRecord)⟩).any
          (fun x => x == y))) := hcon
      have h2 := (List.mem_filter.mp hcon').2
      rw [hany] at h2
      simp at h2
    · rw [hst1]
      exact dupFree_insert_results emptyDB (inputs.filterMap proc)
        none now1 true false dupFree_nil
    · intro htot
      rw [hst1]
      have htp2 : cliToProcess
          ⟨(insert_results emptyDB (inputs.filterMap proc)
              none now1 true false).1,
           some ((inputs.filterMap proc).map csvOfRecord)⟩
          inputs false = [] := by
        unfold cliToProcess
        rw [if_neg (by simp)]
        rw [List.filter_eq_nil_iff]
        intro d hd
        have hany : (cliSkipSet
            ⟨(insert_results emptyDB (inputs.filterMap proc)
                none now1 true false).1,
             some ((inputs.filterMap proc).map csvOfRecord)⟩).any
            (fun x => x == d) = true :=
          List.any_eq_true.mpr ⟨d, hmemskip d hd (htot d hd), by simp⟩
        simp [hany]
      refine ⟨(cliRun_empty_toProcess _ inputs proc order2 false now2
        htp2).2.1, ?_⟩
      have hexne : cliExisting
          ⟨(insert_results emptyDB (inputs.filterMap proc)
              none now1 true false).1,
           some ((inputs.filterMap proc).map csvOfRecord)⟩ false ≠ [] := by
        obtain ⟨d0, hd0⟩ := List.exists_mem_of_ne_nil inputs hne
        obtain ⟨r0, hr0⟩ := Option.isSome_iff_exists.mp (htot d0 hd0)
        have hdom0 := hecho d0 hd0 r0 hr0
        apply List.ne_nil_of_mem (a := csvOfRecord r0)
        unfold cliExisting csvReadRows
        show csvOfRecord r0 ∈ ((inputs.filterMap proc).map
          csvOfRecord).filter (fun r => !(r.domain.getD []).isEmpty)
        refine List.mem_filter.mpr ⟨List.mem_map.mpr
          ⟨r0, List.mem_filterMap.mpr ⟨d0, hd0, hr0⟩, rfl⟩, ?_⟩
        show (!(r0.domain.getD []).isEmpty) = true
        rw [hdom0]
        exact ne_nil_not_isEmpty (hnonempty d0 hd0)
      rw [cliRun_skip_with_existing _ inputs proc order2 false now2
        htp2 hexne]
      have hdup : ∀ r ∈ cliExisting
          ⟨(insert_results emptyDB (inputs.filterMap proc)
              none now1 true false).1,
           some ((inputs.filterMap proc).map csvOfRecord)⟩ false,
          keyOf r = [] ∨
          ∃ row ∈ (insert_results emptyDB (inputs.filterMap proc)
              none now1 true false).1.results,
            sqlNormKey row.domain = keyOf r := by
        intro r hrex
        have hrex' : r ∈ ((inputs.filterMap proc).map
            csvOfRecord).filter (fun r => !(r.domain.getD []).isEmpty) := hrex
        obtain ⟨r', hr'mem, hr'eq⟩ :=
          List.mem_map.mp (List.mem_filter.mp hrex').1
        by_cases hk : keyOf r = []
        · exact Or.inl hk
        · right
          rw [← hr'eq, keyOf_csvOfRecord] at hk ⊢
          exact insertFold_false_key_present (insertBid none now1)
            (inputs.filterMap proc) ⟨[], ⟨0, 0, 0⟩⟩ r' hr'mem hk
      exact insert_results_all_dup _ _ none now2 hdup
    · intro hstrip htot reply1 db1 heq
      have hres1 : flaskProcessOrder inputs proc order1 ≠ [] := by
        obtain ⟨d0, hd0mem⟩ := List.exists_mem_of_ne_nil inputs hne
        obtain ⟨r0, hr0⟩ := Option.isSome_iff_exists.mp (htot d0 hd0mem)
        obtain ⟨j, hjlen, hjd⟩ := List.mem_iff_getElem.mp hd0mem
        have hj : j ∈ order1 := hperm1.mem_iff.mpr (List.mem_range.mpr hjlen)
        apply List.ne_nil_of_mem (a := r0)
        unfold flaskProcessOrder
        refine List.mem_filterMap.mpr ⟨j, hj, ?_⟩
        rw [List.getElem?_eq_getElem hjlen, hjd]
        simpa using hr0
      rw [flaskClassify_fresh inputs proc order1 hc1 now1 hne hres1] at heq
      injection heq with heq'
      have hdb1 : db1 = (insert_results emptyDB
          (flaskProcessOrder inputs proc order1)
          (some (flaskBatchId now1)) now1 hc1 false).1 :=
        (congrArg Prod.snd heq').symm
      subst hdb1
      have hmatch : ∀ d ∈ inputs,
          getResultsDomain1 ((insert_results emptyDB
            (flaskProcessOrder inputs proc order1)
            (some (flaskBatchId now1)) now1 hc1 false).1) d ≠ [] := by
        intro d hd
        obtain ⟨rd, hrd⟩ := Option.isSome_iff_exists.mp (htot d hd)
        have hdom := hecho d hd rd hrd
        obtain ⟨j, hjlen, hjd⟩ := List.mem_iff_getElem.mp hd
        have hjmem : j ∈ order1 :=
          hperm1.mem_iff.mpr (List.mem_range.mpr hjlen)
        have hrdmem : rd ∈ flaskProcessOrder inputs proc order1 := by
          unfold flaskProcessOrder
          refine List.mem_filterMap.mpr ⟨j, hjmem, ?_⟩
          rw [List.getElem?_eq_getElem hjlen, hjd]
          simpa using hrd
        have hkey : keyOf rd = lower d := by
          unfold keyOf pyNormKey
          rw [hdom]
          show lower (pyStrip d) = lower d
          rw [hstrip d hd]
        have hkeyne : keyOf rd ≠ [] := by
          rw [hkey]
          intro hcon
          exact hnonempty d hd ((lower_eq_nil_iff d).mp hcon)
        obtain ⟨row, hrowmem, hrowkey⟩ :=
          insertFold_false_key_present
            (insertBid (some (flaskBatchId now1)) now1)
            (flaskProcessOrder inputs proc order1) ⟨[], ⟨0, 0, 0⟩⟩
            rd hrdmem hkeyne
        rcases insertFold_provenance false
            (insertBid (some (flaskBatchId now1)) now1)
            (flaskProcessOrder inputs proc order1) ⟨[], ⟨0, 0, 0⟩⟩
            row hrowmem with hmem0 | ⟨r', hr'mem, hr'eq⟩
        · cases hmem0
        · obtain ⟨i, himem, hieq⟩ := List.mem_filterMap.mp hr'mem
          have hilen : i < inputs.length :=
            List.mem_range.mp (hperm1.mem_iff.mp himem)
          rw [List.getElem?_eq_getElem hilen] at hieq
          have hd'mem : inputs[i] ∈ inputs := inputs.getElem_mem hilen
          have hdom' := hecho (inputs[i]) hd'mem r' (by simpa using hieq)
          have hrowdom : row.domain = inputs[i] := by
            rw [hr'eq]
            show pyStrip (r'.domain.getD []) = inputs[i]
            rw [hdom']
            show pyStrip (inputs[i]) = inputs[i]
            exact hstrip (inputs[i]) hd'mem
          have hlike : likeMatch row.domain d = true := by
            unfold likeMatch
            have h1 : sqlNormKey row.domain = lower d := hrowkey.trans hkey
            have htrim : sqlTrim (inputs[i]) = inputs[i] := by
              conv_lhs => rw [← hstrip (inputs[i]) hd'mem]
              rw [sqlTrim_pyStrip, hstrip (inputs[i]) hd'mem]
            rw [hrowdom] at h1
            unfold sqlNormKey at h1
            rw [htrim] at h1
            rw [hrowdom, h1]
            exact containsSub_self (lower d)
          unfold getResultsDomain1
          apply take_one_ne_nil
          rw [ne_eq, List.reverse_eq_nil_iff]
          intro hcon
          have hrowf : row ∈ ((insert_results emptyDB
              (flaskProcessOrder inputs proc order1)
              (some (flaskBatchId now1)) now1 hc1 false).1.results).filter
              (fun row => likeMatch row.domain d) :=
            List.mem_filter.mpr ⟨hrowmem, hlike⟩
          rw [hcon] at hrowf
          cases hrowf
      have hsplit2 : (flaskSplit ((insert_results emptyDB
          (flaskProcessOrder inputs proc order1)
          (some (flaskBatchId now1)) now1 hc1 false).1) inputs).1 = [] := by
        rw [flaskSplit_fst_eq, List.filter_eq_nil_iff]
        intro d hd
        simp only [List.isEmpty_eq_true]
        exact hmatch d hd
      unfold flaskClassify flaskToProcess flaskExisting
      rw [if_neg (by simpa using hne)]
      rw [if_pos (by
        show (if false then inputs else (flaskSplit _ inputs).1).isEmpty = true
        simpa using hsplit2)]
      simp

/-- C5 amended witness: two trimmed domains with an echoing worker —
the second CLI run processes nothing and the store is unchanged. -/
theorem pipeline_second_run_idempotent_witness :
    (∀ d ∈ (["a.com".data, "b.com".data] : List Str), d ≠ []) ∧
    ((cliRun (cliRun freshCliState ["a.com".data, "b.com".data] echoProc
          [1, 0] false 0).state
        ["a.com".data, "b.com".data] echoProc [] false 5).processed = 0 ∧
     (cliRun (cliRun freshCliState ["a.com".data, "b.com".data] echoProc
          [1, 0] false 0).state
        ["a.com".data, "b.com".data] echoProc [] false 5).state.db
       = (cliRun freshCliState ["a.com".data, "b.com".data] echoProc
          [1, 0] false 0).state.db) :=
  ⟨by decide,
   (pipeline_second_run_idempotent ["a.com".data, "b.com".data] echoProc
     [1, 0] [] 0 5 true true
     (fun d _ r hr => by
       injection hr with h
       rw [← h]
       rfl)
     (by decide) (by decide)).2.2.1 (by decide)⟩

end BWC
